import Mathlib

/-!
Verification of the WikiGeo place-resolution and enrichment pipeline.

The development shallowly embeds the Python sources `app/main.py`,
`app/wiki.py`, `app/genai.py` and `app/settings.py`.  Python strings are
`List Char`; the HTTP/JSON providers are an explicit environment record whose
fields give, per call, the outcome of the corresponding network request
(`Except Unit` models an `httpx.HTTPError` being raised); the `async` control
flow is sequential, so the pipeline is a pure function of that environment.
-/

namespace App

/-- Strings are modelled as lists of characters (a Python `str` is a sequence
of code points). -/
abbrev Str := List Char

/-- Turn a Lean string literal into the model type. -/
def str (s : String) : Str := s.toList

/-- Whitespace test modelling the regex class `\s` and Python `str.strip` /
`str.lower` whitespace (ASCII range; the concrete inputs used in this file are
all ASCII). -/
def isWs (c : Char) : Bool :=
  c == ' ' || c == '\t' || c == '\n' || c == '\r' || c == '\x0b' || c == '\x0c'

/-- The sentence punctuation of the lookbehind `(?<=[.!?])`. -/
def isPunct (c : Char) : Bool := c == '.' || c == '!' || c == '?'

/-- `punctEnd acc` holds when the reversed accumulator `acc` of the splitter
records a current unit whose last consumed character is sentence punctuation. -/
def punctEnd : Str → Bool
  | [] => false
  | p :: _ => isPunct p

/-- Engine of `re.split(r"(?<=[.!?])\s+", text)`: scan left to right keeping a
reversed accumulator of the current unit; on whitespace immediately preceded by
`.`, `!` or `?` emit the unit and drop the whole (maximal) whitespace run.  The
recursion is indexed by fuel so that the definition is structural and the
kernel can evaluate it; any `fuel ≥ text.length` gives the same value
(`splitFuel_congr`). -/
def splitFuel : Nat → Str → Str → List Str
  | 0, acc, rest => [acc.reverse ++ rest]
  | _ + 1, acc, [] => [acc.reverse]
  | fuel + 1, acc, c :: rest =>
    if isWs c && punctEnd acc then
      acc.reverse :: splitFuel fuel [] (rest.dropWhile fun x => isWs x)
    else
      splitFuel fuel (c :: acc) rest

/-- `re.split(r"(?<=[.!?])\s+", text)`: split at every maximal whitespace run
that is preceded by `.`, `!` or `?`; the separator runs are dropped, the
punctuation stays with the unit on its left. -/
def sentenceSplit (text : Str) : List Str := splitFuel text.length [] text

/-- Python `sep.join(parts)`. -/
def joinSep (sep : Str) : List Str → Str
  | [] => []
  | [u] => u
  | u :: us => u ++ sep ++ joinSep sep us

/-- Modelled from the spec: `enforce_lines` is imported by the orchestrator
(`from app.genai import enforce_lines`, `app/main.py` line 6) but its
definition is missing from the source tree.  Spec §4.6 line enforcement:
"re-split the condensed text into sentence units, keep at most the requested
count, and join them with line breaks rather than spaces." -/
def enforce_lines (text : Str) (n : Nat) : Str :=
  joinSep ['\n'] ((sentenceSplit text).take n)

/-- Python `str.strip()`: remove whitespace from both ends. -/
def strip (l : Str) : Str :=
  ((l.dropWhile fun c => isWs c).reverse.dropWhile fun c => isWs c).reverse

/-- Python `s.rsplit(" ", 1)[0]`: everything before the last space character,
or the whole string when it contains no space (then `rsplit` returns `[s]`). -/
def rsplitLast (l : Str) : Str :=
  if l.contains ' ' then ((l.reverse.dropWhile fun c => !(c == ' ')).tail).reverse
  else l

/-- `app/genai.py::_fallback_shorten` (Lean names cannot begin with an
underscore, so the leading underscore is dropped): the no-Gemini fallback that
clips to the first `max 1 approx_sentences` sentence units and enforces the
character cap with an ellipsis. -/
def fallback_shorten (text : Str) (max_chars : Nat) (approx_sentences : Nat) : Str :=
  if text = [] then []
  else
    let parts := sentenceSplit (strip text)
    let clipped := joinSep [' '] (parts.take (max 1 approx_sentences))
    if max_chars < clipped.length then rsplitLast (clipped.take max_chars) ++ ['…']
    else clipped

/-- `app/genai.py::summarize_to_length` on the backend-disabled path: with
`GEMINI_API_KEY` empty, `enabled()` is false and the function returns `""` on
empty input and `_fallback_shorten(text, max_chars, sentences)` otherwise. -/
def summarize_to_length (text : Str) (_lang : Str) (sentences : Nat) (max_chars : Nat) : Str :=
  if text = [] then [] else fallback_shorten text max_chars sentences

/-- Number of lines of a text: newline count plus one (the length of
`text.split("\n")`). -/
def lineCount (l : Str) : Nat := l.count '\n' + 1

/-- Python truthiness of an optional string field (`None` and `""` are falsy). -/
def truthy : Option Str → Bool
  | none => false
  | some s => !s.isEmpty

/-- Python `a or b` for two optional strings. -/
def pyOr (a b : Option Str) : Option Str := if truthy a then a else b

/-- Python `a or b` for two strings. -/
def orElse (a b : Str) : Str := if a = [] then b else a

/-- Python `" ".join(filter(None, xs))` over optional fields: drop the falsy
entries, join the rest with single spaces. -/
def joinFiltered (xs : List (Option Str)) : Str :=
  joinSep [' '] (xs.filterMap fun o => if truthy o then o else none)

/-- ASCII `str.lower` on one character. -/
def lowerChar (c : Char) : Char :=
  if 'A' ≤ c ∧ c ≤ 'Z' then Char.ofNat (c.toNat + 32) else c

/-- ASCII model of Python `str.lower()`. -/
def lowerStr (l : Str) : Str := l.map lowerChar

/-! ## Data model (`app/wiki.py`, `app/main.py`, `app/settings.py`) -/

/-- One row of the EN-Wikipedia geosearch result (`pageid`, `title`, `lat`,
`lon`).  The coordinates are only carried through, never computed with, so the
float payload is modelled by an opaque integer carrier. -/
structure Candidate where
  pageid : Nat
  title : Str
  lat : Int
  lon : Int
deriving DecidableEq

/-- The fields of the REST summary payload that `wiki.normalize` reads.
`titles_normalized` stands for `(s.get("titles") or {}).get("normalized")`,
`page_url` for `((s.get("content_urls") or {}).get("desktop") or {}).get("page")`,
and the image fields for `(s.get(...) or {}).get("source")`; each is `none`
whenever any `.get` along its path yields a falsy value. -/
structure Summary where
  title : Option Str
  titles_normalized : Option Str
  description : Option Str
  extract : Option Str
  page_url : Option Str
  thumbnail_source : Option Str
  originalimage_source : Option Str
deriving DecidableEq

/-- A successful (HTTP 200, well-formed JSON) response of the REST summary
endpoint: `problem` is `data.get("type", "").endswith("problem+json")`. -/
structure SummaryResp where
  problem : Bool
  payload : Summary
deriving DecidableEq

/-- One value of the `pages` dict in the pageprops response:
`wikibase_item` is `(page.get("pageprops") or {}).get("wikibase_item")`. -/
structure PageProps where
  wikibase_item : Option Str
deriving DecidableEq

/-- One sitelink value of the Wikidata entity response. -/
structure SiteLink where
  title : Option Str
deriving DecidableEq

/-- The canonical place record shaped by `wiki.normalize` and enriched in the
`lookup` loop; `short_summary`/`more_summary` are attached by the orchestrator
(in Python the keys are absent until assigned; here they start as `[]`). -/
structure Place where
  title : Option Str
  normalized_title : Option Str
  description : Option Str
  extract : Option Str
  lat : Int
  lng : Int
  page_url : Option Str
  thumbnail_url : Option Str
  original_image_url : Option Str
  pageid : Nat
  lang : Str
  short_summary : Str
  more_summary : Str
deriving DecidableEq

/-- `lookup`'s response shape (`LookupResponse` in `app/main.py`). -/
structure LookupResponse where
  best : Option Place
  candidates : List Place
deriving DecidableEq

/-- The provider environment: each field gives the outcome of one network
request made by `app/wiki.py` (after JSON decoding and plain dict access).
`Except.error ()` models `httpx.HTTPError` raised by `_get_json` (transport
failure or `raise_for_status`).  The generative backend (`app/genai.py`) never
raises to its caller, so its two capabilities are total functions; on the
backend-disabled path they are `summarize_to_length`/identity. -/
structure Env where
  geosearch : Except Unit (List Candidate)
  qid : Nat → Except Unit (List PageProps)
  entity : Str → Except Unit (Str → Option SiteLink)
  summary : Str → Str → Except Unit SummaryResp
  fullext : Str → Str → Except Unit (Option Str)
  summarize : Str → Str → Nat → Nat → Str
  translate : Str → Str → Str

/-- The call completed without raising (no exception propagated). -/
def isOk {α : Type} : Except Unit α → Bool
  | .ok _ => true
  | .error _ => false

/-- `wiki.geosearch_en`: returns the `geosearch` list; no `try`, so a raised
`httpx.HTTPError` propagates to the caller. -/
def geosearch_en (env : Env) : Except Unit (List Candidate) := env.geosearch

/-- `wiki.wikidata_qid_for_pageid`: fetch pageprops (no `try`: network errors
propagate), return `None` when `pages` is empty, else the first page's
`wikibase_item`. -/
def wikidata_qid_for_pageid (env : Env) (pageid : Nat) : Except Unit (Option Str) := do
  let pages ← env.qid pageid
  match pages with
  | [] => return none
  | page :: _ => return page.wikibase_item

/-- `wiki.title_in_lang_from_qid`: look up the `f"{lang}wiki"` sitelink on the
entity record (no `try`: network errors propagate); return the title when the
link exists and its title is truthy. -/
def title_in_lang_from_qid (env : Env) (qid : Str) (lang : Str) : Except Unit (Option Str) :=
  if qid = [] then .ok none
  else do
    let sitelinks ← env.entity qid
    match sitelinks (lang ++ str "wiki") with
    | none => return none
    | some link =>
      match link.title with
      | none => return none
      | some t => if t = [] then return none else return (some t)

/-- `wiki.summary_in_lang`: `try ... except httpx.HTTPError: return None`, and
a well-formed response whose `type` ends in `problem+json` is also `None`. -/
def summary_in_lang (env : Env) (title : Str) (lang : Str) : Option Summary :=
  match env.summary title lang with
  | .error _ => none
  | .ok d => if d.problem then none else some d.payload

/-- `wiki.full_extract`: `try ... except httpx.HTTPError: return None`; the
extract string is stripped and an empty result becomes `None` (the environment
field already yields `none` for a missing `pages`/`extract`). -/
def full_extract (env : Env) (title : Str) (lang : Str) : Option Str :=
  match env.fullext title lang with
  | .error _ => none
  | .ok none => none
  | .ok (some txt) => if strip txt = [] then none else some (strip txt)

/-- `wiki.normalize`: pure shaping of one place entry (`candidate` row plus
summary payload `s`), preferring summary fields and tagging the record with the
resolved target language. -/
def normalize (candidate : Candidate) (s : Summary) (lang : Str) : Place :=
  { title := pyOr s.title (some candidate.title)
  , normalized_title := pyOr s.titles_normalized s.title
  , description := s.description
  , extract := s.extract
  , lat := candidate.lat
  , lng := candidate.lon
  , page_url := s.page_url
  , thumbnail_url := s.thumbnail_source
  , original_image_url := s.originalimage_source
  , pageid := candidate.pageid
  , lang := lang
  , short_summary := []
  , more_summary := [] }

/-- `app/settings.py::SUPPORTED_LANGS` (its key set). -/
def SUPPORTED_LANGS : List Str :=
  [str "en", str "de", str "fr", str "es", str "it", str "ar", str "zh", str "ja",
   str "ru", str "nl", str "pt", str "fa", str "ur", str "bn", str "pl", str "sv",
   str "no", str "da", str "fi", str "hu", str "tr", str "hi"]

/-- `app/main.py` lines 56-58: `(req.lang or default).lower()`, replaced by
`"en"` when not a supported code.  `defaultLang` models
`settings.DEFAULT_LANG` (source default `"en"`, overridable by deployment
configuration, hence a parameter). -/
def resolveLang (defaultLang : Str) (reqLang : Option Str) : Str :=
  let language := lowerStr (match reqLang with
    | some l => if l = [] then defaultLang else l
    | none => defaultLang)
  if language ∈ SUPPORTED_LANGS then language else str "en"

/-! ## The per-candidate pipeline (`app/main.py` lines 64-114) -/

/-- A `summary_in_lang` provider call, recorded for the fetch-order analysis. -/
structure Call where
  title : Str
  lang : Str
deriving DecidableEq

/-- Outcome of processing one geosearch candidate: the enriched place (`none`
when the candidate was dropped by `continue`), the `used_en_fallback` flag, and
the `summary_in_lang` calls that were issued, in order. -/
structure CandResult where
  place : Option Place
  usedEnFallback : Bool
  sumCalls : List Call
deriving DecidableEq

/-- `app/main.py` lines 105-107: `genai.translate_text(x, language) or x` on an
optional field.  `translate_text` returns `""` on falsy input and the
environment's translation (itself the original on failure or with the backend
disabled) otherwise; the trailing `or x` keeps the original when the
translation comes back empty. -/
def pyTranslate (env : Env) (lang : Str) : Option Str → Option Str
  | none => none
  | some t =>
    if t = [] then some []
    else if env.translate t lang = [] then some t else some (env.translate t lang)

/-- `app/main.py` lines 66-67: resolve the Wikidata QID, then — only when the
QID is truthy — the target-language sitelink title.  Errors raised by either
provider call propagate. -/
def resolveTarget (env : Env) (language : Str) (c : Candidate) : Except Unit (Option Str) := do
  let qid ← wikidata_qid_for_pageid env c.pageid
  match qid with
  | some q => if q = [] then return none else title_in_lang_from_qid env q language
  | none => return none

/-- `app/main.py` lines 69-75: the summary-fetch policy.  With a truthy
localized title, try `summary_in_lang(target_title, language)` first; whenever
that step yields nothing (`if not s`), fetch `summary_in_lang(c.title, "en")`
and set `used_en_fallback`.  Returns the chosen summary, the flag, and the
issued calls in order. -/
def fetchSummary (env : Env) (language : Str) (c : Candidate) (target_title : Option Str) :
    Option Summary × Bool × List Call :=
  match target_title with
  | some t =>
    if t = [] then (summary_in_lang env c.title (str "en"), true, [⟨c.title, str "en"⟩])
    else
      match summary_in_lang env t language with
      | some v => (some v, false, [⟨t, language⟩])
      | none =>
        (summary_in_lang env c.title (str "en"), true, [⟨t, language⟩, ⟨c.title, str "en"⟩])
  | none => (summary_in_lang env c.title (str "en"), true, [⟨c.title, str "en"⟩])

/-- `app/main.py` lines 79-112: normalize the summary into a place, build the
summary source texts, condense them, translate title/description on the
English-fallback path, and attach the line-enforced summaries. -/
def buildPlace (env : Env) (language : Str) (c : Candidate) (target_title : Option Str)
    (s : Summary) (usedEn : Bool) : Place :=
  let place := normalize c s language
  let base_short := strip (joinFiltered [place.title, place.description, place.extract])
  let base_more0 : Option Str :=
    match target_title with
    | some t => if t = [] then none else full_extract env t language
    | none => none
  let base_more := if truthy base_more0 then base_more0 else full_extract env c.title (str "en")
  let short_text := env.summarize (orElse base_short (base_more.getD [])) language 5 700
  let more_text :=
    env.summarize (if truthy base_more then base_more.getD [] else (place.extract).getD [])
      language 15 3000
  let place :=
    if usedEn && !(language = str "en" : Bool) then
      let p1 := { place with title := pyTranslate env language place.title }
      if truthy p1.description then
        { p1 with description := pyTranslate env language p1.description }
      else p1
    else place
  let short_sum := enforce_lines (orElse short_text ((place.extract).getD [])) 5
  let more_sum := enforce_lines (orElse more_text short_sum) 15
  { place with short_summary := short_sum, more_summary := more_sum }

/-- `app/main.py` lines 69-114 after the title resolution: everything here is
pure (every provider call below line 67 catches its own network errors).  A
candidate whose two summary fetches both came back absent is dropped
(`continue`, modelled as `place := none`). -/
def afterResolve (env : Env) (language : Str) (c : Candidate)
    (target_title : Option Str) : CandResult :=
  let f := fetchSummary env language c target_title
  match f.1 with
  | none => { place := none, usedEnFallback := f.2.1, sumCalls := f.2.2 }
  | some s =>
    { place := some (buildPlace env language c target_title s f.2.1)
    , usedEnFallback := f.2.1
    , sumCalls := f.2.2 }

/-- One iteration of the `for c in raw` loop in `lookup`. -/
def processCandidate (env : Env) (language : Str) (c : Candidate) : Except Unit CandResult :=
  (resolveTarget env language c).map (afterResolve env language c)

/-- The whole `for` loop: process candidates in order, keep the places of the
non-dropped ones; a raised provider error aborts the loop (and the request). -/
def processAll (env : Env) (language : Str) : List Candidate → Except Unit (List Place)
  | [] => .ok []
  | c :: rest => do
    let r ← processCandidate env language c
    let others ← processAll env language rest
    match r.place with
    | some p => return p :: others
    | none => return others

/-- `app/main.py::lookup`: resolve the language, geosearch (errors propagate),
return the empty response on an empty candidate list, enrich, return the empty
response when every candidate was dropped, else pick `best` as the first
enriched place with a truthy thumbnail (or the first place overall). -/
def lookup (env : Env) (defaultLang : Str) (reqLang : Option Str) :
    Except Unit LookupResponse :=
  let language := resolveLang defaultLang reqLang
  match geosearch_en env with
  | .error e => .error e
  | .ok raw =>
    if raw = [] then .ok ⟨none, []⟩
    else
      match processAll env language raw with
      | .error e => .error e
      | .ok enriched =>
        if enriched = [] then .ok ⟨none, []⟩
        else
          let with_img := enriched.filter fun p => truthy p.thumbnail_url
          .ok ⟨(if with_img = [] then enriched else with_img).head?, enriched⟩

/-! ## The claim's wording of the condensation fallback (refinement comparison)

`claim_fallback` renders the claimed description of `_fallback_shorten`
literally ("truncate at the last whitespace boundary before the cap");
`amended_fallback` is the amended description ("truncate at the last space
before the cap").  Both are written independently of `fallback_shorten` (their
truncation is by position of the last matching character, not by
`rsplit`-style suffix surgery) so that agreement with the source translation
is a theorem, not a restatement. -/

/-- Position of the last character of `l` satisfying `p`, if any. -/
def lastIdxWhere (p : Char → Bool) (l : Str) : Option Nat :=
  match l.reverse.findIdx? p with
  | none => none
  | some j => some (l.length - 1 - j)

/-- Truncate at the last `p`-character: keep everything strictly before the
last character satisfying `p`; the whole string when there is none. -/
def truncAtLast (p : Char → Bool) (l : Str) : Str :=
  match lastIdxWhere p l with
  | none => l
  | some i => l.take i

/-- The deterministic fallback exactly as the claim words it: split the
trimmed text into sentence units, keep the first `max 1 N` units joined by
spaces, and if the joined string exceeds the cap, truncate it at the last
whitespace boundary before the cap and append an ellipsis marker. -/
def claim_fallback (text : Str) (max_chars : Nat) (approx_sentences : Nat) : Str :=
  if text = [] then []
  else
    let units := sentenceSplit (strip text)
    let joined := joinSep [' '] (units.take (max 1 approx_sentences))
    if joined.length ≤ max_chars then joined
    else truncAtLast (fun c => isWs c) (joined.take max_chars) ++ ['…']

/-- The amended description: as `claim_fallback` but truncating at the last
space (U+0020) rather than at any whitespace character. -/
def amended_fallback (text : Str) (max_chars : Nat) (approx_sentences : Nat) : Str :=
  if text = [] then []
  else
    let units := sentenceSplit (strip text)
    let joined := joinSep [' '] (units.take (max 1 approx_sentences))
    if joined.length ≤ max_chars then joined
    else truncAtLast (fun c => c == ' ') (joined.take max_chars) ++ ['…']

/-! ## Concrete data for witnesses and counterexamples -/

/-- A geosearch row. -/
def cand1 : Candidate := ⟨7, str "Tower", 10, 20⟩

/-- A second geosearch row. -/
def cand2 : Candidate := ⟨8, str "Gate", 11, 21⟩

/-- A localized (German) summary payload. -/
def sum1 : Summary :=
  { title := some (str "Turm")
  , titles_normalized := some (str "Turm")
  , description := some (str "Alt.")
  , extract := some (str "Ein Turm.")
  , page_url := some (str "url")
  , thumbnail_source := some (str "thumb")
  , originalimage_source := none }

/-- An English summary payload with a thumbnail. -/
def sumEn : Summary :=
  { title := some (str "Tower")
  , titles_normalized := some (str "Tower")
  , description := some (str "Old.")
  , extract := some (str "A tower.")
  , page_url := some (str "url")
  , thumbnail_source := some (str "thumb")
  , originalimage_source := none }

/-- An English summary payload without a thumbnail. -/
def sumNoThumb : Summary :=
  { title := some (str "Gate")
  , titles_normalized := some (str "Gate")
  , description := some (str "A gate.")
  , extract := some (str "An old gate.")
  , page_url := some (str "url2")
  , thumbnail_source := none
  , originalimage_source := none }

/-- Environment where every provider call fails after a successful geosearch. -/
def envQidErr : Env :=
  { geosearch := .ok [cand1]
  , qid := fun _ => .error ()
  , entity := fun _ => .error ()
  , summary := fun _ _ => .error ()
  , fullext := fun _ _ => .error ()
  , summarize := fun t _ _ _ => t
  , translate := fun t _ => t }

/-- Environment whose geosearch request itself fails. -/
def envGeoErr : Env := { envQidErr with geosearch := .error () }

/-- Environment where the QID resolves and the German sitelink and German
summary both succeed. -/
def envLoc : Env :=
  { geosearch := .ok [cand1]
  , qid := fun _ => .ok [⟨some (str "Q1")⟩]
  , entity := fun _ =>
      .ok (fun k => if k = str "dewiki" then some ⟨some (str "Turm")⟩ else none)
  , summary := fun t l => if t = str "Turm" ∧ l = str "de" then .ok ⟨false, sum1⟩ else .error ()
  , fullext := fun _ _ => .ok none
  , summarize := fun t _ _ _ => t
  , translate := fun t _ => t }

/-- Environment where the QID resolves but the Wikidata entity request
fails. -/
def envEntErr : Env := { envLoc with entity := fun _ => .error () }

/-- Environment with no cross-language linkage (empty `pages` dict) where only
the English summary succeeds. -/
def envEn : Env :=
  { geosearch := .ok [cand1]
  , qid := fun _ => .ok []
  , entity := fun _ => .error ()
  , summary := fun _ l => if l = str "en" then .ok ⟨false, sumEn⟩ else .error ()
  , fullext := fun _ _ => .ok none
  , summarize := fun t _ _ _ => t
  , translate := fun t _ => t }

/-- Environment where both summary fetches fail, so the candidate is dropped. -/
def envDrop : Env := { envQidErr with qid := fun _ => .ok [] }

/-- Two candidates, the first without and the second with a thumbnail. -/
def envTwo : Env :=
  { geosearch := .ok [cand2, cand1]
  , qid := fun _ => .ok []
  , entity := fun _ => .error ()
  , summary := fun t l =>
      if l = str "en" then
        (if t = str "Gate" then .ok ⟨false, sumNoThumb⟩ else .ok ⟨false, sumEn⟩)
      else .error ()
  , fullext := fun _ _ => .ok none
  , summarize := fun t _ _ _ => t
  , translate := fun t _ => t }

/-- Replace the geosearch result of an environment. -/
def withGeo (env : Env) (cs : List Candidate) : Env := { env with geosearch := .ok cs }

/-- Placeholder record (never reached by the witnesses). -/
def emptyPlace : Place :=
  { title := none, normalized_title := none, description := none, extract := none
  , lat := 0, lng := 0, page_url := none, thumbnail_url := none
  , original_image_url := none, pageid := 0, lang := [], short_summary := []
  , more_summary := [] }

/-- Project the response out of a lookup outcome. -/
def respOf (e : Except Unit LookupResponse) : LookupResponse :=
  match e with
  | .ok r => r
  | .error _ => ⟨none, []⟩

/-- The concrete response of the English-fallback run used by the witnesses. -/
def resp1 : LookupResponse := respOf (lookup envEn (str "en") (some (str "de")))

/-- Its only candidate record. -/
def place1 : Place :=
  match resp1.candidates with
  | p :: _ => p
  | [] => emptyPlace

/-- The concrete response of the two-candidate run. -/
def resp2 : LookupResponse := respOf (lookup envTwo (str "en") (some (str "en")))

/-- The concrete per-candidate result of the localized-success run. -/
def res1 : CandResult :=
  match processCandidate envLoc (str "de") cand1 with
  | .ok r => r
  | .error _ => ⟨none, false, []⟩

/-! ## Proof-infrastructure predicates for the sentence splitter -/

/-- Adjacent characters that do not form a split boundary. -/
def sepR (a b : Char) : Prop := (isPunct a && isWs b) = false

/-- A text with no internal split boundary (every adjacent pair is `sepR`). -/
def NoBound (u : Str) : Prop := List.Chain' sepR u

/-- The scan through `u`, starting from reversed accumulator `acc`, never
triggers a split. -/
def NoSplitThrough : Str → Str → Prop
  | _, [] => True
  | acc, c :: rest => (isWs c && punctEnd acc) = false ∧ NoSplitThrough (c :: acc) rest

/-- The unit ends with sentence punctuation (in particular it is nonempty). -/
def endsPunct (u : Str) : Prop := ∃ p, u.getLast? = some p ∧ isPunct p = true

/-- Every unit except the final one ends with sentence punctuation. -/
def PunctSep : List Str → Prop
  | [] => True
  | [_] => True
  | u :: v :: rest => endsPunct u ∧ PunctSep (v :: rest)

/-- Every unit after the first is empty or starts with non-whitespace. -/
def HeadsOk (us : List Str) : Prop :=
  ∀ u ∈ us.tail, u = [] ∨ ∃ c cs, u = c :: cs ∧ isWs c = false

/-! ## Properties of the sentence splitter -/

theorem length_dropWhile_le (p : Char → Bool) (l : Str) :
    (l.dropWhile p).length ≤ l.length := by
  induction l with
  | nil => simp [List.dropWhile]
  | cons a l ih =>
    by_cases h : p a
    · rw [List.dropWhile_cons_of_pos h]
      exact Nat.le_succ_of_le ih
    · rw [List.dropWhile_cons_of_neg h]

theorem splitFuel_congr : ∀ (f g : Nat) (acc l : Str), l.length ≤ f → l.length ≤ g →
    splitFuel f acc l = splitFuel g acc l := by
  intro f
  induction f with
  | zero =>
    intro g acc l hf _
    have hl : l = [] := List.length_eq_zero.mp (Nat.le_zero.mp hf)
    subst hl
    cases g <;> simp [splitFuel]
  | succ f ih =>
    intro g acc l hf hg
    cases l with
    | nil => cases g <;> simp [splitFuel]
    | cons c rest =>
      cases g with
      | zero => exact absurd hg (by simp)
      | succ g =>
        have hfr : rest.length ≤ f := by simpa using hf
        have hgr : rest.length ≤ g := by simpa using hg
        simp only [splitFuel]
        by_cases h : (isWs c && punctEnd acc) = true
        · simp only [h, if_true]
          rw [ih g [] _ (le_trans (length_dropWhile_le _ _) hfr)
            (le_trans (length_dropWhile_le _ _) hgr)]
        · simp only [h, if_false]
          exact ih g (c :: acc) rest hfr hgr

theorem splitFuel_ne_nil : ∀ (f : Nat) (acc l : Str), splitFuel f acc l ≠ [] := by
  intro f
  induction f with
  | zero => intro acc l; simp [splitFuel]
  | succ f ih =>
    intro acc l
    cases l with
    | nil => simp [splitFuel]
    | cons c rest =>
      simp only [splitFuel]
      by_cases h : (isWs c && punctEnd acc) = true
      · simp [h]
      · simp only [h, if_false]
        exact ih (c :: acc) rest

theorem nst_cons : ∀ (u : Str) (c : Char) (acc : Str),
    List.Chain' sepR (c :: u) → NoSplitThrough (c :: acc) u := by
  intro u
  induction u with
  | nil => intro c acc _; trivial
  | cons d u ih =>
    intro c acc h
    rw [List.chain'_cons] at h
    refine ⟨?_, ih d (c :: acc) h.2⟩
    have hcd : (isPunct c && isWs d) = false := h.1
    show (isWs d && punctEnd (c :: acc)) = false
    show (isWs d && isPunct c) = false
    rw [Bool.and_comm]
    exact hcd

theorem nst_of_noBound (u : Str) (h : NoBound u) : NoSplitThrough [] u := by
  cases u with
  | nil => trivial
  | cons c rest =>
    refine ⟨?_, nst_cons rest c [] h⟩
    show (isWs c && punctEnd []) = false
    simp [punctEnd]

theorem splitFuel_through : ∀ (u : Str) (f g : Nat) (acc l : Str),
    u.length + l.length ≤ f → l.length ≤ g → NoSplitThrough acc u →
    splitFuel f acc (u ++ l) = splitFuel g (u.reverse ++ acc) l := by
  intro u
  induction u with
  | nil =>
    intro f g acc l hf hg _
    simpa using splitFuel_congr f g acc l (by simpa using hf) hg
  | cons c u ih =>
    intro f g acc l hf hg hnst
    cases f with
    | zero => exact absurd hf (by simp)
    | succ f =>
      have hrec : u.length + l.length ≤ f := by
        have := hf
        simp only [List.length_cons] at this
        omega
      show splitFuel (f + 1) acc (c :: (u ++ l)) = _
      simp only [splitFuel, hnst.1, if_false]
      rw [ih f g (c :: acc) l hrec hg hnst.2]
      simp

theorem splitFuel_single (u : Str) (f : Nat) (hf : u.length ≤ f) (h : NoBound u) :
    splitFuel f [] u = [u] := by
  have h1 : splitFuel f [] (u ++ []) = splitFuel 1 (u.reverse ++ []) [] :=
    splitFuel_through u f 1 [] [] (by simpa using hf) (by simp) (nst_of_noBound u h)
  simpa [splitFuel] using h1

theorem endsPunct_of_punctEnd (acc : Str) (h : punctEnd acc = true) :
    endsPunct acc.reverse := by
  cases acc with
  | nil => exact absurd h (by simp [punctEnd])
  | cons p t =>
    refine ⟨p, ?_, h⟩
    rw [List.getLast?_reverse]
    rfl

theorem punctEnd_of_endsPunct (u : Str) (h : endsPunct u) : punctEnd u.reverse = true := by
  obtain ⟨p, hl, hp⟩ := h
  have hh : u.reverse.head? = some p := by rw [List.head?_reverse]; exact hl
  cases hr : u.reverse with
  | nil => rw [hr] at hh; exact absurd hh (by simp)
  | cons q t =>
    rw [hr] at hh
    have : q = p := by simpa using hh
    subst this
    exact hp

theorem endsPunct_ne_nil (u : Str) (h : endsPunct u) : u ≠ [] := by
  obtain ⟨p, hl, _⟩ := h
  intro hu
  rw [hu] at hl
  exact absurd hl (by simp)

theorem bool_not_true {b : Bool} (h : ¬(b = true)) : b = false := by
  cases b
  · rfl
  · exact absurd rfl h

theorem noBound_snoc (acc : Str) (c : Char) (h : NoBound acc.reverse)
    (hc : (isWs c && punctEnd acc) = false) : NoBound ((c :: acc).reverse) := by
  rw [List.reverse_cons]
  rw [NoBound, List.chain'_append]
  refine ⟨h, List.chain'_singleton c, ?_⟩
  intro x hx y hy
  have hy' : c = y := by simpa using hy
  subst hy'
  have hx' : acc.head? = some x := by
    rw [← List.getLast?_reverse]
    simpa using hx
  cases acc with
  | nil => exact absurd hx' (by simp)
  | cons a t =>
    have hax : a = x := by simpa using hx'
    subst hax
    show (isPunct a && isWs c) = false
    have : (isWs c && isPunct a) = false := hc
    rwa [Bool.and_comm] at this

theorem noBound_splitFuel : ∀ (f : Nat) (acc l : Str), l.length ≤ f → NoBound acc.reverse →
    ∀ u ∈ splitFuel f acc l, NoBound u := by
  intro f
  induction f with
  | zero =>
    intro acc l hf h u hu
    have hl : l = [] := List.length_eq_zero.mp (Nat.le_zero.mp hf)
    subst hl
    simp only [splitFuel, List.append_nil, List.mem_singleton] at hu
    subst hu
    exact h
  | succ f ih =>
    intro acc l hf h u hu
    cases l with
    | nil =>
      simp only [splitFuel, List.mem_singleton] at hu
      subst hu
      exact h
    | cons c rest =>
      have hfr : rest.length ≤ f := by simpa using hf
      simp only [splitFuel] at hu
      by_cases hc : (isWs c && punctEnd acc) = true
      · rw [if_pos hc] at hu
        rcases List.mem_cons.mp hu with hu | hu
        · subst hu; exact h
        · exact ih [] _ (le_trans (length_dropWhile_le _ _) hfr) List.chain'_nil u hu
      · rw [if_neg hc] at hu
        exact ih (c :: acc) rest hfr (noBound_snoc acc c h (bool_not_true hc)) u hu

theorem punctSep_splitFuel : ∀ (f : Nat) (acc l : Str), l.length ≤ f →
    PunctSep (splitFuel f acc l) := by
  intro f
  induction f with
  | zero =>
    intro acc l hf
    have hl : l = [] := List.length_eq_zero.mp (Nat.le_zero.mp hf)
    subst hl
    simp [splitFuel, PunctSep]
  | succ f ih =>
    intro acc l hf
    cases l with
    | nil => simp [splitFuel, PunctSep]
    | cons c rest =>
      have hfr : rest.length ≤ f := by simpa using hf
      simp only [splitFuel]
      by_cases hc : (isWs c && punctEnd acc) = true
      · rw [if_pos hc]
        have hM := ih [] (rest.dropWhile fun x => isWs x)
          (le_trans (length_dropWhile_le _ _) hfr)
        cases hMv : splitFuel f [] (rest.dropWhile fun x => isWs x) with
        | nil => exact absurd hMv (splitFuel_ne_nil f [] _)
        | cons v rest' =>
          rw [hMv] at hM
          exact ⟨endsPunct_of_punctEnd acc (Bool.and_elim_right hc), hM⟩
      · rw [if_neg hc]
        exact ih (c :: acc) rest hfr

theorem splitFuel_head : ∀ (f : Nat) (acc l : Str),
    ∃ k, (splitFuel f acc l).head? = some (acc.reverse ++ l.take k) := by
  intro f
  induction f with
  | zero =>
    intro acc l
    exact ⟨l.length, by simp [splitFuel]⟩
  | succ f ih =>
    intro acc l
    cases l with
    | nil => exact ⟨0, by simp [splitFuel]⟩
    | cons c rest =>
      simp only [splitFuel]
      by_cases hc : (isWs c && punctEnd acc) = true
      · rw [if_pos hc]
        exact ⟨0, by simp⟩
      · rw [if_neg hc]
        obtain ⟨k, hk⟩ := ih (c :: acc) rest
        refine ⟨k + 1, ?_⟩
        rw [hk]
        simp [List.take_cons]

theorem dropWhile_head_false (p : Char → Bool) :
    ∀ (l : Str) (c : Char) (t : Str), l.dropWhile p = c :: t → p c = false := by
  intro l
  induction l with
  | nil => intro c t h; exact absurd h (by simp [List.dropWhile])
  | cons a l ih =>
    intro c t h
    by_cases ha : p a
    · rw [List.dropWhile_cons_of_pos ha] at h
      exact ih c t h
    · rw [List.dropWhile_cons_of_neg ha] at h
      have hac : a = c := by simpa using congrArg List.head? h
      subst hac
      exact bool_not_true ha

theorem headsOk_splitFuel : ∀ (f : Nat) (acc l : Str), l.length ≤ f →
    HeadsOk (splitFuel f acc l) := by
  intro f
  induction f with
  | zero =>
    intro acc l hf
    have hl : l = [] := List.length_eq_zero.mp (Nat.le_zero.mp hf)
    subst hl
    intro u hu
    simp [splitFuel] at hu
  | succ f ih =>
    intro acc l hf
    cases l with
    | nil => intro u hu; simp [splitFuel] at hu
    | cons c rest =>
      have hfr : rest.length ≤ f := by simpa using hf
      simp only [splitFuel]
      by_cases hc : (isWs c && punctEnd acc) = true
      · rw [if_pos hc]
        intro u hu
        simp only [List.tail_cons] at hu
        cases hMv : splitFuel f [] (rest.dropWhile fun x => isWs x) with
        | nil => exact absurd hMv (splitFuel_ne_nil f [] _)
        | cons v rest' =>
          rw [hMv] at hu
          rcases List.mem_cons.mp hu with hu | hu
          · subst hu
            obtain ⟨k, hk⟩ := splitFuel_head f [] (rest.dropWhile fun x => isWs x)
            rw [hMv] at hk
            have hv : u = (rest.dropWhile fun x => isWs x).take k := by simpa using hk
            cases hm : rest.dropWhile fun x => isWs x with
            | nil => left; rw [hv, hm]; simp
            | cons d t =>
              cases k with
              | zero => left; rw [hv]; simp
              | succ k =>
                right
                refine ⟨d, t.take k, ?_, dropWhile_head_false _ rest d t hm⟩
                rw [hv, hm]
                simp [List.take_cons]
          · have hH := ih [] (rest.dropWhile fun x => isWs x)
              (le_trans (length_dropWhile_le _ _) hfr)
            rw [hMv] at hH
            exact hH u hu
      · rw [if_neg hc]
        exact ih (c :: acc) rest hfr

theorem splitFuel_junction (f g : Nat) (u l : Str) (hu : endsPunct u) (hnb : NoBound u)
    (hf : u.length + 1 + l.length ≤ f) (hg : (l.dropWhile fun x => isWs x).length ≤ g) :
    splitFuel f [] (u ++ '\n' :: l) = u :: splitFuel g [] (l.dropWhile fun x => isWs x) := by
  have h1 : splitFuel f [] (u ++ '\n' :: l) =
      splitFuel (l.length + 1) (u.reverse ++ []) ('\n' :: l) :=
    splitFuel_through u f (l.length + 1) [] ('\n' :: l) (by simp; omega) (by simp)
      (nst_of_noBound u hnb)
  rw [h1, List.append_nil]
  have hcond : (isWs '\n' && punctEnd u.reverse) = true := by
    rw [punctEnd_of_endsPunct u hu]
    rfl
  show splitFuel (l.length + 1) u.reverse ('\n' :: l) = _
  simp only [splitFuel, hcond, if_true, List.reverse_reverse]
  congr 1
  exact splitFuel_congr l.length g [] _ (length_dropWhile_le _ _) hg

theorem sentenceSplit_joinSep : ∀ (us : List Str), us ≠ [] →
    (∀ u ∈ us, NoBound u) → PunctSep us → HeadsOk us →
    sentenceSplit (joinSep ['\n'] us) = us := by
  intro us
  induction us with
  | nil => intro h; exact absurd rfl h
  | cons u vs ih =>
    intro _ hnb hps hho
    cases vs with
    | nil =>
      show sentenceSplit (joinSep ['\n'] [u]) = [u]
      have hj : joinSep ['\n'] [u] = u := rfl
      rw [hj]
      exact splitFuel_single u u.length le_rfl (hnb u (by simp))
    | cons v rest =>
      have hps' : endsPunct u ∧ PunctSep (v :: rest) := hps
      have hJ : joinSep ['\n'] (u :: v :: rest) = u ++ '\n' :: joinSep ['\n'] (v :: rest) := by
        show u ++ ['\n'] ++ joinSep ['\n'] (v :: rest) = _
        simp
      rw [sentenceSplit, hJ]
      have hlen : (u ++ '\n' :: joinSep ['\n'] (v :: rest)).length =
          u.length + 1 + (joinSep ['\n'] (v :: rest)).length := by
        simp
        omega
      rw [splitFuel_junction _ (joinSep ['\n'] (v :: rest)).length u _ hps'.1
        (hnb u (by simp)) (le_of_eq hlen.symm) (length_dropWhile_le _ _)]
      congr 1
      have hv : v = [] ∨ ∃ c cs, v = c :: cs ∧ isWs c = false := hho v (by simp)
      rcases hv with hv | ⟨c, cs, hv, hcws⟩
      · subst hv
        cases rest with
        | nil => rfl
        | cons w rest' =>
          have : endsPunct ([] : Str) ∧ PunctSep (w :: rest') := hps'.2
          exact absurd rfl (endsPunct_ne_nil [] this.1)
      · have hJv : ∃ t, joinSep ['\n'] (v :: rest) = c :: t := by
          cases rest with
          | nil => exact ⟨cs, by rw [hv]; rfl⟩
          | cons w rest' =>
            refine ⟨cs ++ '\n' :: joinSep ['\n'] (w :: rest'), ?_⟩
            show v ++ ['\n'] ++ joinSep ['\n'] (w :: rest') = _
            rw [hv]
            simp
        obtain ⟨t, hJv⟩ := hJv
        rw [hJv, List.dropWhile_cons_of_neg (by rw [hcws]; simp), ← hJv]
        have hrec := ih (by simp) (fun w hw => hnb w (List.mem_cons_of_mem u hw)) hps'.2
          (fun w hw => hho w (List.mem_cons_of_mem v hw))
        exact hrec

theorem punctSep_take : ∀ (us : List Str), ∀ (n : Nat), PunctSep us → PunctSep (us.take n) := by
  intro us
  induction us with
  | nil => intro n _; simp [PunctSep]
  | cons u vs ih =>
    intro n hps
    cases n with
    | zero => simp [PunctSep]
    | succ m =>
      cases vs with
      | nil => simp [PunctSep]
      | cons v rest =>
        have hps' : endsPunct u ∧ PunctSep (v :: rest) := hps
        cases m with
        | zero => exact (by simp [PunctSep] : PunctSep [u])
        | succ k =>
          have h2 := ih (k + 1) hps'.2
          show PunctSep (u :: v :: rest.take k)
          exact ⟨hps'.1, h2⟩

theorem headsOk_take (us : List Str) (n : Nat) (h : HeadsOk us) : HeadsOk (us.take n) := by
  cases us with
  | nil => intro u hu; simp at hu
  | cons u vs =>
    cases n with
    | zero => intro w hw; simp at hw
    | succ m =>
      intro w hw
      simp only [List.take_succ_cons, List.tail_cons] at hw
      exact h w (List.mem_of_mem_take hw)

theorem take_ne_nil_of_ne_nil {α : Type} (l : List α) (n : Nat) (hl : l ≠ []) (hn : 1 ≤ n) :
    l.take n ≠ [] := by
  cases l with
  | nil => exact absurd rfl hl
  | cons a t =>
    cases n with
    | zero => omega
    | succ m => simp

/-- Idempotence of the spec-modelled line enforcement: re-splitting the joined
units recovers exactly the kept units. -/
theorem enforce_lines_idem_of_le (t : Str) (n : Nat) (h : 1 ≤ n) :
    enforce_lines (enforce_lines t n) n = enforce_lines t n := by
  have husnb : ∀ u ∈ sentenceSplit t, NoBound u :=
    noBound_splitFuel t.length [] t le_rfl List.chain'_nil
  have hps : PunctSep (sentenceSplit t) := punctSep_splitFuel t.length [] t le_rfl
  have hho : HeadsOk (sentenceSplit t) := headsOk_splitFuel t.length [] t le_rfl
  have hkne : (sentenceSplit t).take n ≠ [] :=
    take_ne_nil_of_ne_nil _ n (splitFuel_ne_nil t.length [] t) h
  have hre : sentenceSplit (joinSep ['\n'] ((sentenceSplit t).take n)) =
      (sentenceSplit t).take n :=
    sentenceSplit_joinSep _ hkne (fun u hu => husnb u (List.mem_of_mem_take hu))
      (punctSep_take _ n hps) (headsOk_take _ n hho)
  show joinSep ['\n'] ((sentenceSplit (joinSep ['\n'] ((sentenceSplit t).take n))).take n) =
    joinSep ['\n'] ((sentenceSplit t).take n)
  rw [hre, List.take_take, min_self]

/-! ## Length and character bounds of the condensation chain -/

theorem joinSep_splitFuel_length : ∀ (f : Nat) (acc l : Str),
    (joinSep ['\n'] (splitFuel f acc l)).length ≤ acc.length + l.length := by
  intro f
  induction f with
  | zero =>
    intro acc l
    show (joinSep ['\n'] [acc.reverse ++ l]).length ≤ _
    simp [joinSep]
  | succ f ih =>
    intro acc l
    cases l with
    | nil =>
      show (joinSep ['\n'] [acc.reverse]).length ≤ _
      simp [joinSep]
    | cons c rest =>
      show (joinSep ['\n'] (splitFuel (f + 1) acc (c :: rest))).length ≤ _
      simp only [splitFuel]
      by_cases hc : (isWs c && punctEnd acc) = true
      · rw [if_pos hc]
        cases hMv : splitFuel f [] (rest.dropWhile fun x => isWs x) with
        | nil => exact absurd hMv (splitFuel_ne_nil f [] _)
        | cons v rest' =>
          have hIH := ih [] (rest.dropWhile fun x => isWs x)
          rw [hMv] at hIH
          have hd : (rest.dropWhile fun x => isWs x).length ≤ rest.length :=
            length_dropWhile_le _ _
          show (joinSep ['\n'] (acc.reverse :: v :: rest')).length ≤ _
          show (acc.reverse ++ ['\n'] ++ joinSep ['\n'] (v :: rest')).length ≤ _
          simp only [List.length_append, List.length_reverse, List.length_cons,
            List.length_nil] at hIH ⊢
          omega
      · rw [if_neg hc]
        have hIH := ih (c :: acc) rest
        simp only [List.length_cons] at hIH ⊢
        omega

theorem joinSep_take_length_le (sep : Str) : ∀ (us : List Str) (n : Nat),
    (joinSep sep (us.take n)).length ≤ (joinSep sep us).length := by
  intro us
  induction us with
  | nil => intro n; simp
  | cons u vs ih =>
    intro n
    cases n with
    | zero => simp [joinSep]
    | succ m =>
      cases vs with
      | nil => simp
      | cons v rest =>
        have hR : joinSep sep (u :: v :: rest) = u ++ sep ++ joinSep sep (v :: rest) := rfl
        cases m with
        | zero =>
          show (joinSep sep [u]).length ≤ _
          rw [hR]
          show u.length ≤ _
          simp
        | succ k =>
          have hL : joinSep sep (u :: (v :: rest).take (k + 1)) =
              u ++ sep ++ joinSep sep ((v :: rest).take (k + 1)) := by
            show joinSep sep (u :: v :: rest.take k) = _
            rfl
          show (joinSep sep (u :: (v :: rest).take (k + 1))).length ≤ _
          rw [hL, hR]
          have := ih (k + 1)
          simp only [List.length_append]
          omega

theorem enforce_lines_length_le (s : Str) (n : Nat) : (enforce_lines s n).length ≤ s.length := by
  have h1 := joinSep_take_length_le ['\n'] (sentenceSplit s) n
  have h2 := joinSep_splitFuel_length s.length [] s
  simp only [List.length_nil] at h2
  exact le_trans h1 (by simpa using h2)

theorem rsplitLast_length_le (l : Str) : (rsplitLast l).length ≤ l.length := by
  unfold rsplitLast
  by_cases h : l.contains ' '
  · rw [if_pos h]
    have h1 := length_dropWhile_le (fun c => !(c == ' ')) l.reverse
    simp only [List.length_reverse] at h1 ⊢
    have h2 := List.length_tail (l.reverse.dropWhile fun c => !(c == ' '))
    omega
  · rw [if_neg h]

theorem cap_branch_le (clipped : Str) (mc : Nat) :
    (if mc < clipped.length then rsplitLast (clipped.take mc) ++ ['…'] else clipped).length ≤
      mc + 1 := by
  by_cases h : mc < clipped.length
  · rw [if_pos h]
    have h1 := rsplitLast_length_le (clipped.take mc)
    have h2 : (clipped.take mc).length ≤ mc := by simp [List.length_take]
    simp only [List.length_append, List.length_singleton]
    omega
  · rw [if_neg h]
    omega

theorem fallback_shorten_length_le (t : Str) (mc n : Nat) :
    (fallback_shorten t mc n).length ≤ mc + 1 := by
  unfold fallback_shorten
  by_cases ht : t = []
  · rw [if_pos ht]; simp
  · rw [if_neg ht]
    exact cap_branch_le (joinSep [' '] ((sentenceSplit (strip t)).take (max 1 n))) mc

theorem summarize_to_length_le (t lang : Str) (ns mc : Nat) :
    (summarize_to_length t lang ns mc).length ≤ mc + 1 := by
  unfold summarize_to_length
  by_cases ht : t = []
  · rw [if_pos ht]; simp
  · rw [if_neg ht]
    exact fallback_shorten_length_le t mc ns

theorem mem_of_mem_dropWhile (p : Char → Bool) (l : Str) (c : Char)
    (h : c ∈ l.dropWhile p) : c ∈ l :=
  (List.dropWhile_suffix p).sublist.subset h

theorem mem_of_mem_strip (c : Char) (l : Str) (h : c ∈ strip l) : c ∈ l := by
  unfold strip at h
  rw [List.mem_reverse] at h
  have h1 := mem_of_mem_dropWhile _ _ _ h
  rw [List.mem_reverse] at h1
  exact mem_of_mem_dropWhile _ _ _ h1

theorem splitFuel_mem_chars : ∀ (f : Nat) (acc l : Str) (u : Str) (c : Char),
    u ∈ splitFuel f acc l → c ∈ u → c ∈ acc ∨ c ∈ l := by
  intro f
  induction f with
  | zero =>
    intro acc l u c hu hc
    simp only [splitFuel, List.mem_singleton] at hu
    subst hu
    rcases List.mem_append.mp hc with h | h
    · exact Or.inl (List.mem_reverse.mp h)
    · exact Or.inr h
  | succ f ih =>
    intro acc l u c hu hc
    cases l with
    | nil =>
      simp only [splitFuel, List.mem_singleton] at hu
      subst hu
      exact Or.inl (List.mem_reverse.mp hc)
    | cons d rest =>
      simp only [splitFuel] at hu
      by_cases hd : (isWs d && punctEnd acc) = true
      · rw [if_pos hd] at hu
        rcases List.mem_cons.mp hu with hu | hu
        · subst hu
          exact Or.inl (List.mem_reverse.mp hc)
        · rcases ih [] _ u c hu hc with h | h
          · exact absurd h (by simp)
          · exact Or.inr (List.mem_cons_of_mem d (mem_of_mem_dropWhile _ _ _ h))
      · rw [if_neg hd] at hu
        rcases ih (d :: acc) rest u c hu hc with h | h
        · rcases List.mem_cons.mp h with h | h
          · exact Or.inr (by simp [h])
          · exact Or.inl h
        · exact Or.inr (List.mem_cons_of_mem d h)

theorem joinSep_mem_chars (sep : Str) : ∀ (us : List Str) (c : Char),
    c ∈ joinSep sep us → c ∈ sep ∨ ∃ u ∈ us, c ∈ u := by
  intro us
  induction us with
  | nil => intro c hc; simp [joinSep] at hc
  | cons u vs ih =>
    intro c hc
    cases vs with
    | nil =>
      exact Or.inr ⟨u, by simp, hc⟩
    | cons v rest =>
      have : c ∈ u ++ sep ++ joinSep sep (v :: rest) := hc
      rcases List.mem_append.mp this with h | h
      · rcases List.mem_append.mp h with h | h
        · exact Or.inr ⟨u, by simp, h⟩
        · exact Or.inl h
      · rcases ih c h with h | ⟨w, hw, hcw⟩
        · exact Or.inl h
        · exact Or.inr ⟨w, List.mem_cons_of_mem u hw, hcw⟩

theorem mem_of_mem_rsplitLast (l : Str) (c : Char) (h : c ∈ rsplitLast l) : c ∈ l := by
  unfold rsplitLast at h
  by_cases hc : l.contains ' '
  · rw [if_pos hc] at h
    rw [List.mem_reverse] at h
    have h1 := (List.tail_sublist _).subset h
    have h2 := mem_of_mem_dropWhile _ _ _ h1
    exact List.mem_reverse.mp h2
  · rwa [if_neg hc] at h

theorem fallback_shorten_chars (t : Str) (mc n : Nat) (c : Char)
    (h : c ∈ fallback_shorten t mc n) : c = ' ' ∨ c = '…' ∨ c ∈ t := by
  unfold fallback_shorten at h
  by_cases ht : t = []
  · rw [if_pos ht] at h; simp at h
  · rw [if_neg ht] at h
    have hcl : ∀ x, x ∈ joinSep [' ']
        ((sentenceSplit (strip t)).take (max 1 n)) → x = ' ' ∨ x ∈ t := by
      intro x hx
      rcases joinSep_mem_chars [' '] _ x hx with hx | ⟨u, hu, hxu⟩
      · exact Or.inl (by simpa using hx)
      · have hu' := List.mem_of_mem_take hu
        rcases splitFuel_mem_chars _ [] _ u x hu' hxu with hx | hx
        · exact absurd hx (by simp)
        · exact Or.inr (mem_of_mem_strip x t hx)
    by_cases hlen : mc < (joinSep [' '] ((sentenceSplit (strip t)).take (max 1 n))).length
    · simp only [if_pos hlen] at h
      rcases List.mem_append.mp h with h | h
      · have h1 := mem_of_mem_rsplitLast _ _ h
        have h2 := List.mem_of_mem_take h1
        rcases hcl c h2 with h | h
        · exact Or.inl h
        · exact Or.inr (Or.inr h)
      · exact Or.inr (Or.inl (by simpa using h))
    · simp only [if_neg hlen] at h
      rcases hcl c h with h | h
      · exact Or.inl h
      · exact Or.inr (Or.inr h)

theorem summarize_no_newline (t lang : Str) (ns mc : Nat) (h : '\n' ∉ t) :
    '\n' ∉ summarize_to_length t lang ns mc := by
  unfold summarize_to_length
  by_cases ht : t = []
  · rw [if_pos ht]; simp
  · rw [if_neg ht]
    intro hmem
    rcases fallback_shorten_chars t mc ns '\n' hmem with hx | hx | hx
    · exact absurd hx (by decide)
    · exact absurd hx (by decide)
    · exact h hx

theorem count_joinSep_newline : ∀ (us : List Str), (∀ u ∈ us, '\n' ∉ u) →
    (joinSep ['\n'] us).count '\n' = us.length - 1 := by
  intro us
  induction us with
  | nil => intro _; simp [joinSep]
  | cons u vs ih =>
    intro h
    cases vs with
    | nil =>
      show u.count '\n' = 0
      exact List.count_eq_zero.mpr (h u (by simp))
    | cons v rest =>
      show (u ++ ['\n'] ++ joinSep ['\n'] (v :: rest)).count '\n' = _
      rw [List.count_append, List.count_append]
      rw [List.count_eq_zero.mpr (h u (by simp)),
        ih fun w hw => h w (List.mem_cons_of_mem u hw)]
      simp only [List.count_singleton, List.length_cons]
      simp
      omega

theorem enforce_lines_lineCount_le (s : Str) (n : Nat) (h1 : 1 ≤ n) (h : '\n' ∉ s) :
    lineCount (enforce_lines s n) ≤ n := by
  have hfree : ∀ u ∈ (sentenceSplit s).take n, '\n' ∉ u := by
    intro u hu hmem
    rcases splitFuel_mem_chars s.length [] s u '\n' (List.mem_of_mem_take hu) hmem with hx | hx
    · simp at hx
    · exact h hx
  have hcount := count_joinSep_newline _ hfree
  have hlen : ((sentenceSplit s).take n).length ≤ n := by
    simp [List.length_take]
  have hne : ((sentenceSplit s).take n).length ≥ 1 := by
    have := take_ne_nil_of_ne_nil _ n (splitFuel_ne_nil s.length [] s) h1
    cases hx : (sentenceSplit s).take n with
    | nil => exact absurd hx this
    | cons a t => simp [hx]
  show (joinSep ['\n'] ((sentenceSplit s).take n)).count '\n' + 1 ≤ n
  omega

/-! ## Texts without whitespace or punctuation pass through unsplit -/

theorem dropWhile_eq_self_of (p : Char → Bool) (l : Str) (h : ∀ c ∈ l, p c = false) :
    l.dropWhile p = l := by
  cases l with
  | nil => rfl
  | cons a t => exact List.dropWhile_cons_of_neg (by rw [h a (by simp)]; simp)

theorem strip_plain (l : Str) (h : ∀ c ∈ l, isWs c = false) : strip l = l := by
  unfold strip
  rw [dropWhile_eq_self_of _ l h,
    dropWhile_eq_self_of _ l.reverse (fun c hc => h c (List.mem_reverse.mp hc)),
    List.reverse_reverse]

theorem noBound_of_no_punct : ∀ (l : Str), (∀ c ∈ l, isPunct c = false) → NoBound l := by
  intro l
  induction l with
  | nil => intro _; exact List.chain'_nil
  | cons a t ih =>
    intro h
    cases t with
    | nil => exact List.chain'_singleton a
    | cons b t' =>
      rw [NoBound, List.chain'_cons]
      refine ⟨?_, ih fun c hc => h c (List.mem_cons_of_mem a hc)⟩
      show (isPunct a && isWs b) = false
      rw [h a (by simp)]
      simp

theorem sentenceSplit_plain (l : Str) (h : ∀ c ∈ l, isPunct c = false) :
    sentenceSplit l = [l] :=
  splitFuel_single l l.length le_rfl (noBound_of_no_punct l h)

theorem contains_space_false (l : Str) (h : ∀ c ∈ l, isWs c = false) :
    l.contains ' ' = false := by
  by_cases hc : l.contains ' ' = true
  · rw [List.contains_eq_any_beq] at hc
    rw [List.any_eq_true] at hc
    obtain ⟨x, hx, hbeq⟩ := hc
    have hsp : ' ' = x := by simpa using hbeq
    subst hsp
    exact absurd (h ' ' hx) (by simp [isWs])
  · exact bool_not_true hc

theorem rsplitLast_of_no_space (l : Str) (h : l.contains ' ' = false) : rsplitLast l = l := by
  unfold rsplitLast
  have hn : ¬(l.contains ' ' = true) := by rw [h]; simp
  rw [if_neg hn]

/-- On a nonempty text with no whitespace and no sentence punctuation, the
condensation chain truncates at exactly the cap and appends the ellipsis:
`max_chars + 1` characters when the text exceeds the cap. -/
theorem plain_condensed_length (l : Str) (hpl : ∀ c ∈ l, isWs c = false ∧ isPunct c = false)
    (hne : l ≠ []) (lang : Str) (ns mc : Nat) (h1 : 1 ≤ ns) (hlen : mc < l.length) :
    (enforce_lines (summarize_to_length l lang ns mc) ns).length = mc + 1 := by
  have hplws : ∀ c ∈ l, isWs c = false := fun c hc => (hpl c hc).1
  have hplp : ∀ c ∈ l, isPunct c = false := fun c hc => (hpl c hc).2
  have hsplit : sentenceSplit (strip l) = [l] := by
    rw [strip_plain l hplws]
    exact sentenceSplit_plain l hplp
  have hfb : fallback_shorten l mc ns = l.take mc ++ ['…'] := by
    unfold fallback_shorten
    rw [if_neg hne]
    show (if mc < (joinSep [' '] ((sentenceSplit (strip l)).take (max 1 ns))).length then
        rsplitLast ((joinSep [' '] ((sentenceSplit (strip l)).take (max 1 ns))).take mc) ++ ['…']
      else joinSep [' '] ((sentenceSplit (strip l)).take (max 1 ns))) = _
    have htake : ([l] : List Str).take (max 1 ns) = [l] := by
      cases hmx : max 1 ns with
      | zero =>
        have : 1 ≤ max 1 ns := le_max_left 1 ns
        omega
      | succ k => simp
    rw [hsplit, htake]
    have hj : joinSep [' '] [l] = l := rfl
    rw [hj, if_pos hlen]
    rw [rsplitLast_of_no_space _ (contains_space_false _
      fun c hc => hplws c (List.mem_of_mem_take hc))]
  have hsum : summarize_to_length l lang ns mc = l.take mc ++ ['…'] := by
    unfold summarize_to_length
    rw [if_neg hne, hfb]
  rw [hsum]
  have hout : ∀ c ∈ l.take mc ++ ['…'], isPunct c = false := by
    intro c hc
    rcases List.mem_append.mp hc with h | h
    · exact hplp c (List.mem_of_mem_take h)
    · have : c = '…' := by simpa using h
      subst this
      rfl
  unfold enforce_lines
  rw [sentenceSplit_plain _ hout]
  have htake : ([l.take mc ++ ['…']] : List Str).take ns = [l.take mc ++ ['…']] := by
    cases hns : ns with
    | zero => omega
    | succ k => simp
  rw [htake]
  show (l.take mc ++ ['…']).length = mc + 1
  rw [List.length_append, List.length_take]
  simp
  omega

/-! ## `rsplit(" ", 1)[0]` coincides with truncation at the last space -/

theorem rsplitLast_eq_truncAtLast (l : Str) :
    rsplitLast l = truncAtLast (fun c => c == ' ') l := by
  unfold rsplitLast truncAtLast lastIdxWhere
  by_cases h : ' ' ∈ l
  · have hcontains : l.contains ' ' = true := by
      rw [List.contains_eq_any_beq, List.any_eq_true]
      exact ⟨' ', h, by simp⟩
    rw [if_pos hcontains]
    have hsome : (l.reverse.findIdx? fun c => c == ' ').isSome = true := by
      rw [List.findIdx?_isSome, List.any_eq_true]
      exact ⟨' ', List.mem_reverse.mpr h, by simp⟩
    obtain ⟨j, hj⟩ := Option.isSome_iff_exists.mp hsome
    rw [hj]
    obtain ⟨hjlt, hpj, hbefore⟩ := List.findIdx?_eq_some_iff_getElem.mp hj
    have hdw : l.reverse.dropWhile (fun c => !(c == ' ')) = l.reverse.drop j := by
      conv_lhs => rw [← List.take_append_drop j l.reverse]
      rw [List.dropWhile_append]
      have htake : (l.reverse.take j).dropWhile (fun c => !(c == ' ')) = [] := by
        rw [List.dropWhile_eq_nil_iff]
        intro x hx
        rw [List.mem_iff_getElem] at hx
        obtain ⟨k, hk, hkx⟩ := hx
        have hkj : k < j := by
          have := hk
          simp only [List.length_take] at this
          omega
        have hkgl : k < l.reverse.length := by omega
        have hx' : l.reverse[k] = x := by
          rw [← hkx]
          symm
          exact List.getElem_take _
        have hb := hbefore k hkj
        rw [hx'] at hb
        show (!(x == ' ')) = true
        rw [bool_not_true hb]
        rfl
      rw [htake]
      simp only [List.isEmpty_nil, if_true]
      rw [List.drop_eq_getElem_cons hjlt, List.dropWhile_cons_of_neg (by rw [hpj]; simp)]
    rw [hdw, List.drop_eq_getElem_cons hjlt]
    simp only [List.tail_cons]
    rw [← List.rdrop_eq_reverse_drop_reverse, List.rdrop]
    congr 1
    have : j < l.length := by simpa using hjlt
    omega
  · have hcontains : l.contains ' ' = false := by
      by_cases hc : l.contains ' ' = true
      · rw [List.contains_eq_any_beq, List.any_eq_true] at hc
        obtain ⟨x, hx, hbeq⟩ := hc
        have hsp : ' ' = x := by simpa using hbeq
        subst hsp
        exact absurd hx h
      · exact bool_not_true hc
    have hn : ¬(l.contains ' ' = true) := by rw [hcontains]; simp
    rw [if_neg hn]
    have hnone : l.reverse.findIdx? (fun c => c == ' ') = none := by
      rw [List.findIdx?_eq_none_iff]
      intro x hx
      have hxne : x ≠ ' ' := by
        intro hsp
        subst hsp
        exact h (List.mem_reverse.mp hx)
      simp [hxne]
    rw [hnone]

/-! ## Structure of the per-candidate pipeline -/

theorem wikidata_qid_eq (env : Env) (p : Nat) :
    wikidata_qid_for_pageid env p =
      match env.qid p with
      | .error e => .error e
      | .ok [] => .ok none
      | .ok (page :: _) => .ok page.wikibase_item := by
  unfold wikidata_qid_for_pageid
  cases env.qid p with
  | error e => rfl
  | ok pages => cases pages <;> rfl

theorem title_in_lang_eq (env : Env) (q lang : Str) :
    title_in_lang_from_qid env q lang =
      if q = [] then .ok none
      else
        match env.entity q with
        | .error e => .error e
        | .ok sl =>
          match sl (lang ++ str "wiki") with
          | none => .ok none
          | some link =>
            match link.title with
            | none => .ok none
            | some t => if t = [] then .ok none else .ok (some t) := by
  unfold title_in_lang_from_qid
  by_cases hq : q = []
  · rw [if_pos hq, if_pos hq]
  · rw [if_neg hq, if_neg hq]
    cases env.entity q with
    | error e => rfl
    | ok sl =>
      show (match sl (lang ++ str "wiki") with
        | none => (pure none : Except Unit (Option Str))
        | some link =>
          match link.title with
          | none => pure none
          | some t => if t = [] then pure none else pure (some t)) =
        (match sl (lang ++ str "wiki") with
        | none => Except.ok none
        | some link =>
          match link.title with
          | none => Except.ok none
          | some t => if t = [] then Except.ok none else Except.ok (some t))
      cases sl (lang ++ str "wiki") with
      | none => rfl
      | some link =>
        cases link.title with
        | none => rfl
        | some t => by_cases ht : t = [] <;> simp [ht, pure, Except.pure]

theorem resolveTarget_eq (env : Env) (lang : Str) (c : Candidate) :
    resolveTarget env lang c =
      match wikidata_qid_for_pageid env c.pageid with
      | .error e => .error e
      | .ok none => .ok none
      | .ok (some q) => if q = [] then .ok none else title_in_lang_from_qid env q lang := by
  unfold resolveTarget
  cases h : wikidata_qid_for_pageid env c.pageid with
  | error e => rfl
  | ok qv =>
    cases qv with
    | none => rfl
    | some q =>
      show (if q = [] then (pure none : Except Unit (Option Str))
          else title_in_lang_from_qid env q lang) =
        (if q = [] then Except.ok none else title_in_lang_from_qid env q lang)
      by_cases hq : q = [] <;> simp [hq, pure, Except.pure]

theorem resolveTarget_some_ne_nil (env : Env) (lang : Str) (c : Candidate) (t : Str)
    (h : resolveTarget env lang c = .ok (some t)) : t ≠ [] := by
  rw [resolveTarget_eq] at h
  cases hw : wikidata_qid_for_pageid env c.pageid with
  | error e => rw [hw] at h; exact absurd h (by simp)
  | ok qv =>
    rw [hw] at h
    cases qv with
    | none => exact absurd h (by simp)
    | some q =>
      have h' : (if q = [] then Except.ok none
          else title_in_lang_from_qid env q lang) = Except.ok (some t) := h
      clear h
      rename' h' => h
      by_cases hq : q = []
      · rw [if_pos hq] at h; exact absurd h (by simp)
      · rw [if_neg hq, title_in_lang_eq, if_neg hq] at h
        cases he : env.entity q with
        | error e => rw [he] at h; exact absurd h (by simp)
        | ok sl =>
          rw [he] at h
          have h2 : (match sl (lang ++ str "wiki") with
            | none => Except.ok none
            | some link =>
              match link.title with
              | none => Except.ok none
              | some u => if u = [] then Except.ok none else Except.ok (some u)) =
              Except.ok (some t) := h
          clear h
          cases hs : sl (lang ++ str "wiki") with
          | none => rw [hs] at h2; exact absurd h2 (by simp)
          | some link =>
            rw [hs] at h2
            have h3 : (match link.title with
              | none => Except.ok none
              | some u => if u = [] then Except.ok none else Except.ok (some u)) =
                Except.ok (some t) := h2
            clear h2
            cases hlt : link.title with
            | none => rw [hlt] at h3; exact absurd h3 (by simp)
            | some t' =>
              rw [hlt] at h3
              have h4 : (if t' = [] then Except.ok none else Except.ok (some t')) =
                  Except.ok (some t) := h3
              clear h3
              by_cases ht' : t' = []
              · rw [if_pos ht'] at h4; exact absurd h4 (by simp)
              · rw [if_neg ht'] at h4
                have hteq : t' = t := by simpa using h4
                subst hteq
                exact ht'

theorem buildPlace_lang (env : Env) (language : Str) (c : Candidate)
    (t? : Option Str) (s : Summary) (b : Bool) :
    (buildPlace env language c t? s b).lang = language := by
  simp only [buildPlace]
  split
  · split <;> simp [normalize, pyTranslate]
  · simp [normalize]

theorem afterResolve_place_lang (env : Env) (language : Str) (c : Candidate)
    (t? : Option Str) (p : Place)
    (h : (afterResolve env language c t?).place = some p) : p.lang = language := by
  simp only [afterResolve] at h
  cases hf : (fetchSummary env language c t?).1 with
  | none => rw [hf] at h; exact absurd h (by simp)
  | some s =>
    rw [hf] at h
    have hp : buildPlace env language c t? s (fetchSummary env language c t?).2.1 = p := by
      simpa using h
    rw [← hp]
    exact buildPlace_lang _ _ _ _ _ _

theorem fetchSummary_fst_none (env : Env) (language : Str) (c : Candidate) (t? : Option Str)
    (hl : ∀ t, t? = some t → t ≠ [] → summary_in_lang env t language = none)
    (he : summary_in_lang env c.title (str "en") = none) :
    (fetchSummary env language c t?).1 = none := by
  unfold fetchSummary
  cases t? with
  | none => exact he
  | some t =>
    by_cases ht : t = []
    · simp [ht, he]
    · simp only [if_neg ht, hl t rfl ht]
      exact he

theorem afterResolve_drop (env : Env) (language : Str) (c : Candidate) (t? : Option Str)
    (hl : ∀ t, t? = some t → t ≠ [] → summary_in_lang env t language = none)
    (he : summary_in_lang env c.title (str "en") = none) :
    (afterResolve env language c t?).place = none := by
  simp only [afterResolve]
  rw [fetchSummary_fst_none env language c t? hl he]

theorem processAll_lang (env : Env) (language : Str) : ∀ (cs : List Candidate) (l : List Place),
    processAll env language cs = .ok l → ∀ p ∈ l, p.lang = language := by
  intro cs
  induction cs with
  | nil =>
    intro l h p hp
    have : ([] : List Place) = l := by simpa [processAll] using h
    subst this
    simp at hp
  | cons c rest ih =>
    intro l h p hp
    unfold processAll at h
    cases hc : processCandidate env language c with
    | error e => rw [hc] at h; exact absurd h (by simp [Bind.bind, Except.bind])
    | ok r =>
      rw [hc] at h
      cases hrest : processAll env language rest with
      | error e =>
        rw [hrest] at h
        exact absurd h (by simp [Bind.bind, Except.bind])
      | ok others =>
        rw [hrest] at h
        have h' : (match r.place with
          | some q => (pure (q :: others) : Except Unit (List Place))
          | none => pure others) = .ok l := h
        clear h
        cases hpl : r.place with
        | some q =>
          rw [hpl] at h'
          have hl : q :: others = l := by
            simpa [pure, Except.pure] using h'
          subst hl
          rcases List.mem_cons.mp hp with hq | hq
          · subst hq
            unfold processCandidate at hc
            cases hrt : resolveTarget env language c with
            | error e => rw [hrt] at hc; exact absurd hc (by simp [Except.map])
            | ok t? =>
              rw [hrt] at hc
              have hr : afterResolve env language c t? = r := by
                simpa [Except.map] using hc
              exact afterResolve_place_lang env language c t? p (by rw [hr, hpl])
          · exact ih others hrest p hq
        | none =>
          rw [hpl] at h'
          have hl : others = l := by
            simpa [pure, Except.pure] using h'
          exact ih others hrest p (by rw [hl]; exact hp)

theorem processCandidate_error_of_qid (env : Env) (lang : Str) (c : Candidate)
    (h : env.qid c.pageid = .error ()) : processCandidate env lang c = .error () := by
  unfold processCandidate
  rw [resolveTarget_eq, wikidata_qid_eq, h]
  rfl

theorem wikidata_qid_cons (env : Env) (p : Nat) (page : PageProps) (rest : List PageProps)
    (h : env.qid p = .ok (page :: rest)) :
    wikidata_qid_for_pageid env p = .ok page.wikibase_item := by
  unfold wikidata_qid_for_pageid
  rw [h]
  rfl

theorem title_in_lang_isOk (env : Env) (q lang : Str)
    (he : ∀ q, isOk (env.entity q) = true) :
    isOk (title_in_lang_from_qid env q lang) = true := by
  unfold title_in_lang_from_qid
  by_cases hq : q = []
  · rw [if_pos hq]; rfl
  · rw [if_neg hq]
    cases hent : env.entity q with
    | error e =>
      have := he q
      rw [hent] at this
      exact absurd this (by simp [isOk])
    | ok sl =>
      show isOk (match sl (lang ++ str "wiki") with
        | none => (pure none : Except Unit (Option Str))
        | some link =>
          match link.title with
          | none => pure none
          | some t => if t = [] then pure none else pure (some t)) = true
      cases sl (lang ++ str "wiki") with
      | none => rfl
      | some link =>
        show isOk (match link.title with
          | none => (pure none : Except Unit (Option Str))
          | some t => if t = [] then pure none else pure (some t)) = true
        cases link.title with
        | none => rfl
        | some t =>
          show isOk (if t = [] then (pure none : Except Unit (Option Str))
            else pure (some t)) = true
          by_cases ht : t = [] <;> simp [ht, isOk, pure, Except.pure]

theorem processCandidate_error_of_entity (env : Env) (lang : Str) (c : Candidate) (q : Str)
    (hq : wikidata_qid_for_pageid env c.pageid = .ok (some q)) (hqne : q ≠ [])
    (he : env.entity q = .error ()) : processCandidate env lang c = .error () := by
  unfold processCandidate
  rw [resolveTarget_eq, hq]
  show Except.map (afterResolve env lang c)
    (if q = [] then Except.ok none else title_in_lang_from_qid env q lang) = _
  rw [if_neg hqne, title_in_lang_eq, if_neg hqne, he]
  rfl

theorem resolveTarget_isOk (env : Env) (lang : Str) (c : Candidate)
    (hq : ∀ p, isOk (env.qid p) = true) (he : ∀ q, isOk (env.entity q) = true) :
    isOk (resolveTarget env lang c) = true := by
  unfold resolveTarget
  cases hqp : env.qid c.pageid with
  | error e =>
    have := hq c.pageid
    rw [hqp] at this
    exact absurd this (by simp [isOk])
  | ok pages =>
    cases pages with
    | nil =>
      rw [wikidata_qid_eq, hqp]
      rfl
    | cons page rest =>
      rw [wikidata_qid_cons env c.pageid page rest hqp]
      show isOk (match page.wikibase_item with
        | some q => if q = [] then (pure none : Except Unit (Option Str))
          else title_in_lang_from_qid env q lang
        | none => pure none) = true
      cases page.wikibase_item with
      | none => rfl
      | some q =>
        show isOk (if q = [] then (pure none : Except Unit (Option Str))
          else title_in_lang_from_qid env q lang) = true
        by_cases hql : q = []
        · rw [if_pos hql]; rfl
        · rw [if_neg hql]
          exact title_in_lang_isOk env q lang he

theorem processCandidate_isOk (env : Env) (lang : Str) (c : Candidate)
    (hq : ∀ p, isOk (env.qid p) = true) (he : ∀ q, isOk (env.entity q) = true) :
    isOk (processCandidate env lang c) = true := by
  unfold processCandidate
  have := resolveTarget_isOk env lang c hq he
  cases hrt : resolveTarget env lang c with
  | error e => rw [hrt] at this; exact absurd this (by simp [isOk])
  | ok t? => rfl

theorem processAll_isOk (env : Env) (lang : Str)
    (hq : ∀ p, isOk (env.qid p) = true) (he : ∀ q, isOk (env.entity q) = true) :
    ∀ (cs : List Candidate), isOk (processAll env lang cs) = true := by
  intro cs
  induction cs with
  | nil => rfl
  | cons c rest ih =>
    unfold processAll
    have h1 := processCandidate_isOk env lang c hq he
    cases hc : processCandidate env lang c with
    | error e => rw [hc] at h1; exact absurd h1 (by simp [isOk])
    | ok r =>
      cases hrest : processAll env lang rest with
      | error e => rw [hrest] at ih; exact absurd ih (by simp [isOk])
      | ok others =>
        show isOk (match r.place with
          | some p => (pure (p :: others) : Except Unit (List Place))
          | none => pure others) = true
        cases r.place <;> rfl

theorem processAll_error_of_mem (env : Env) (lang : Str) :
    ∀ (cs : List Candidate) (c : Candidate), c ∈ cs →
    processCandidate env lang c = .error () → processAll env lang cs = .error () := by
  intro cs
  induction cs with
  | nil => intro c hc; simp at hc
  | cons d rest ih =>
    intro c hc herr
    unfold processAll
    rcases List.mem_cons.mp hc with hdc | hdc
    · rw [hdc] at herr
      rw [herr]
      rfl
    · cases hd : processCandidate env lang d with
      | error e =>
        cases e
        rfl
      | ok r =>
        rw [ih c hdc herr]
        cases r.place <;> rfl

theorem processAll_cons (env : Env) (lang : Str) (c : Candidate) (rest : List Candidate) :
    processAll env lang (c :: rest) =
      Except.bind (processCandidate env lang c) (fun r =>
        Except.bind (processAll env lang rest) (fun others =>
          match r.place with
          | some p => pure (p :: others)
          | none => pure others)) := rfl

theorem processAll_skip (env : Env) (lang : Str) (c : Candidate)
    (hdrop : ∃ b calls, processCandidate env lang c = .ok ⟨none, b, calls⟩) :
    ∀ (pre post : List Candidate),
    processAll env lang (pre ++ c :: post) = processAll env lang (pre ++ post) := by
  obtain ⟨b, calls, hc⟩ := hdrop
  intro pre
  induction pre with
  | nil =>
    intro post
    simp only [List.nil_append]
    rw [processAll_cons, hc]
    cases hpost : processAll env lang post with
    | error e => rfl
    | ok others => rfl
  | cons d pre' ih =>
    intro post
    show processAll env lang (d :: (pre' ++ c :: post)) = processAll env lang (d :: (pre' ++ post))
    rw [processAll_cons, processAll_cons, ih post]

theorem processAll_withGeo (env : Env) (x : List Candidate) (lang : Str) :
    ∀ (cs : List Candidate), processAll (withGeo env x) lang cs = processAll env lang cs := by
  intro cs
  induction cs with
  | nil => rfl
  | cons c rest ih =>
    rw [processAll_cons, processAll_cons, ih]
    rfl

theorem lookup_eq (env : Env) (dl : Str) (rl : Option Str) :
    lookup env dl rl =
      match env.geosearch with
      | .error e => .error e
      | .ok raw =>
        if raw = [] then .ok ⟨none, []⟩
        else
          match processAll env (resolveLang dl rl) raw with
          | .error e => .error e
          | .ok enriched =>
            if enriched = [] then .ok ⟨none, []⟩
            else .ok ⟨(if (enriched.filter fun p => truthy p.thumbnail_url) = []
                then enriched
                else enriched.filter fun p => truthy p.thumbnail_url).head?, enriched⟩ := rfl

theorem find?_eq_head_filter {α : Type} (p : α → Bool) : ∀ (l : List α),
    l.find? p = (l.filter p).head? := by
  intro l
  induction l with
  | nil => rfl
  | cons a t ih =>
    cases hpa : p a with
    | true =>
      have h1 : List.find? p (a :: t) = some a := by simp [List.find?_cons, hpa]
      have h2 : List.filter p (a :: t) = a :: List.filter p t := by simp [List.filter_cons, hpa]
      rw [h1, h2]
      rfl
    | false =>
      have h1 : List.find? p (a :: t) = List.find? p t := by simp [List.find?_cons, hpa]
      have h2 : List.filter p (a :: t) = List.filter p t := by simp [List.filter_cons, hpa]
      rw [h1, h2, ih]

theorem resolveLang_mem (dl : Str) (rl : Option Str) :
    resolveLang dl rl ∈ SUPPORTED_LANGS := by
  unfold resolveLang
  show (if lowerStr (match rl with
      | some l => if l = [] then dl else l
      | none => dl) ∈ SUPPORTED_LANGS
    then lowerStr (match rl with
      | some l => if l = [] then dl else l
      | none => dl)
    else str "en") ∈ SUPPORTED_LANGS
  by_cases hm : lowerStr (match rl with
      | some l => if l = [] then dl else l
      | none => dl) ∈ SUPPORTED_LANGS
  · rwa [if_pos hm]
  · rw [if_neg hm]
    decide

theorem head?_mem {α : Type} (l : List α) (a : α) (h : l.head? = some a) : a ∈ l := by
  cases l with
  | nil => exact absurd h (by simp)
  | cons b t =>
    have : b = a := by simpa using h
    rw [← this]
    simp

theorem lookup_lang (env : Env) (dl : Str) (rl : Option Str) (r : LookupResponse)
    (h : lookup env dl rl = .ok r) :
    (∀ p ∈ r.candidates, p.lang = resolveLang dl rl) ∧
    (∀ b, r.best = some b → b.lang = resolveLang dl rl) := by
  rw [lookup_eq] at h
  cases hg : env.geosearch with
  | error e => rw [hg] at h; exact absurd h (by simp)
  | ok raw =>
    rw [hg] at h
    have h2 : (if raw = [] then Except.ok (⟨none, []⟩ : LookupResponse)
      else match processAll env (resolveLang dl rl) raw with
        | .error e => .error e
        | .ok enriched =>
          if enriched = [] then Except.ok (⟨none, []⟩ : LookupResponse)
          else Except.ok ⟨(if (enriched.filter fun p => truthy p.thumbnail_url) = []
              then enriched
              else enriched.filter fun p => truthy p.thumbnail_url).head?, enriched⟩) =
        Except.ok r := h
    clear h
    by_cases hraw : raw = []
    · rw [if_pos hraw] at h2
      have hr : (⟨none, []⟩ : LookupResponse) = r := by simpa using h2
      rw [← hr]
      constructor
      · intro p hp; simp at hp
      · intro b hb; simp at hb
    · rw [if_neg hraw] at h2
      cases hpa : processAll env (resolveLang dl rl) raw with
      | error e => rw [hpa] at h2; exact absurd h2 (by simp)
      | ok enriched =>
        rw [hpa] at h2
        have h3 : (if enriched = [] then Except.ok (⟨none, []⟩ : LookupResponse)
          else Except.ok ⟨(if (enriched.filter fun p => truthy p.thumbnail_url) = []
              then enriched
              else enriched.filter fun p => truthy p.thumbnail_url).head?, enriched⟩) =
            Except.ok r := h2
        clear h2
        by_cases hen : enriched = []
        · rw [if_pos hen] at h3
          have hr : (⟨none, []⟩ : LookupResponse) = r := by simpa using h3
          rw [← hr]
          constructor
          · intro p hp; simp at hp
          · intro b hb; simp at hb
        · rw [if_neg hen] at h3
          have hall := processAll_lang env (resolveLang dl rl) raw enriched hpa
          have hr : (⟨(if (enriched.filter fun p => truthy p.thumbnail_url) = []
              then enriched
              else enriched.filter fun p => truthy p.thumbnail_url).head?,
              enriched⟩ : LookupResponse) = r := by simpa using h3
          rw [← hr]
          constructor
          · intro p hp; exact hall p hp
          · intro b hb
            simp only at hb
            by_cases hf : (enriched.filter fun p => truthy p.thumbnail_url) = []
            · rw [if_pos hf] at hb
              exact hall b (head?_mem enriched b hb)
            · rw [if_neg hf] at hb
              exact hall b (List.mem_of_mem_filter (head?_mem _ b hb))

theorem afterResolve_used (env : Env) (lang : Str) (c : Candidate) (t? : Option Str) :
    (afterResolve env lang c t?).usedEnFallback = (fetchSummary env lang c t?).2.1 := by
  simp only [afterResolve]
  cases (fetchSummary env lang c t?).1 <;> rfl

theorem afterResolve_calls (env : Env) (lang : Str) (c : Candidate) (t? : Option Str) :
    (afterResolve env lang c t?).sumCalls = (fetchSummary env lang c t?).2.2 := by
  simp only [afterResolve]
  cases (fetchSummary env lang c t?).1 <;> rfl

theorem fetchSummary_none (env : Env) (lang : Str) (c : Candidate) :
    fetchSummary env lang c none =
      (summary_in_lang env c.title (str "en"), true, [⟨c.title, str "en"⟩]) := rfl

theorem fetchSummary_some_hit (env : Env) (lang : Str) (c : Candidate) (t : Str) (s : Summary)
    (ht : t ≠ []) (hs : summary_in_lang env t lang = some s) :
    fetchSummary env lang c (some t) = (some s, false, [⟨t, lang⟩]) := by
  show (if t = [] then
      (summary_in_lang env c.title (str "en"), true, [Call.mk c.title (str "en")])
    else match summary_in_lang env t lang with
      | some v => (some v, false, [Call.mk t lang])
      | none =>
        (summary_in_lang env c.title (str "en"), true,
          [Call.mk t lang, Call.mk c.title (str "en")])) =
    (some s, false, [Call.mk t lang])
  rw [if_neg ht, hs]

theorem fetchSummary_some_miss (env : Env) (lang : Str) (c : Candidate) (t : Str)
    (ht : t ≠ []) (hs : summary_in_lang env t lang = none) :
    fetchSummary env lang c (some t) =
      (summary_in_lang env c.title (str "en"), true, [⟨t, lang⟩, ⟨c.title, str "en"⟩]) := by
  show (if t = [] then
      (summary_in_lang env c.title (str "en"), true, [Call.mk c.title (str "en")])
    else match summary_in_lang env t lang with
      | some v => (some v, false, [Call.mk t lang])
      | none =>
        (summary_in_lang env c.title (str "en"), true,
          [Call.mk t lang, Call.mk c.title (str "en")])) =
    (summary_in_lang env c.title (str "en"), true,
      [Call.mk t lang, Call.mk c.title (str "en")])
  rw [if_neg ht, hs]

theorem lookup_geo_err (env : Env) (dl : Str) (rl : Option Str) (e : Unit)
    (hg : env.geosearch = .error e) : lookup env dl rl = .error e := by
  unfold lookup geosearch_en
  rw [hg]

theorem lookup_geo_nil (env : Env) (dl : Str) (rl : Option Str)
    (hg : env.geosearch = .ok []) : lookup env dl rl = .ok ⟨none, []⟩ := by
  unfold lookup geosearch_en
  rw [hg]
  rfl

theorem lookup_pa_err (env : Env) (dl : Str) (rl : Option Str) (cs : List Candidate) (e : Unit)
    (hg : env.geosearch = .ok cs) (hcs : cs ≠ [])
    (hpa : processAll env (resolveLang dl rl) cs = .error e) :
    lookup env dl rl = .error e := by
  unfold lookup geosearch_en
  rw [hg]
  show (if cs = [] then Except.ok (⟨none, []⟩ : LookupResponse)
    else match processAll env (resolveLang dl rl) cs with
      | .error e => .error e
      | .ok enriched =>
        if enriched = [] then Except.ok (⟨none, []⟩ : LookupResponse)
        else Except.ok ⟨(if (enriched.filter fun p => truthy p.thumbnail_url) = []
            then enriched
            else enriched.filter fun p => truthy p.thumbnail_url).head?, enriched⟩) = .error e
  rw [if_neg hcs, hpa]

theorem lookup_pa_ok (env : Env) (dl : Str) (rl : Option Str) (cs : List Candidate)
    (enriched : List Place) (hg : env.geosearch = .ok cs) (hcs : cs ≠ [])
    (hpa : processAll env (resolveLang dl rl) cs = .ok enriched) :
    lookup env dl rl =
      (if enriched = [] then .ok ⟨none, []⟩
       else .ok ⟨(if (enriched.filter fun p => truthy p.thumbnail_url) = []
           then enriched
           else enriched.filter fun p => truthy p.thumbnail_url).head?, enriched⟩) := by
  unfold lookup geosearch_en
  rw [hg]
  show (if cs = [] then Except.ok (⟨none, []⟩ : LookupResponse)
    else match processAll env (resolveLang dl rl) cs with
      | .error e => .error e
      | .ok enriched =>
        if enriched = [] then Except.ok (⟨none, []⟩ : LookupResponse)
        else Except.ok ⟨(if (enriched.filter fun p => truthy p.thumbnail_url) = []
            then enriched
            else enriched.filter fun p => truthy p.thumbnail_url).head?, enriched⟩) = _
  rw [if_neg hcs, hpa]

/-! ## The claims -/

/-- C7: the line-enforcement operation is idempotent — for every text and
every `N ≥ 1`, `enforce_lines (enforce_lines text N) N = enforce_lines text N`
(`enforce_lines` modelled from spec §4.6, its definition being absent from the
source tree). -/
theorem claim_C7 (text : Str) (n : Nat) (h : 1 ≤ n) :
    enforce_lines (enforce_lines text n) n = enforce_lines text n :=
  enforce_lines_idem_of_le text n h

/-- C7 witness: idempotence at a concrete text and `N = 2`. -/
theorem claim_C7_witness : 1 ≤ 2 ∧
    enforce_lines (enforce_lines (str "Hi. There. Ok") 2) 2 =
      enforce_lines (str "Hi. There. Ok") 2 :=
  ⟨by decide, claim_C7 (str "Hi. There. Ok") 2 (by decide)⟩

/-- C8 counterexample: on `"ab\tcd"` with cap 3 the code truncates with
`rsplit(" ", 1)` — a tab is not a split point, so the result is `"ab\t…"` —
while the claim's "truncate at the last whitespace boundary before the cap"
yields `"ab…"`; the claim is false as stated. -/
theorem claim_C8_counterexample :
    (str "ab\tcd") ≠ [] ∧
    summarize_to_length (str "ab\tcd") (str "en") 1 3 ≠ claim_fallback (str "ab\tcd") 3 1 := by
  constructor
  · decide
  · decide

/-- C8 (amended): with the generative backend disabled, `summarize_to_length`
on nonempty input returns exactly: split the trimmed text into sentence units
at `.`, `!` or `?` followed by whitespace, keep the first `max 1 N` units
joined by spaces, and if the joined string exceeds `maxChars`, truncate it at
the last space (U+0020, not any whitespace) before the cap and append an
ellipsis marker. -/
theorem claim_C8 (text : Str) (lang : Str) (mc n : Nat) (h : text ≠ []) :
    summarize_to_length text lang n mc = amended_fallback text mc n := by
  unfold summarize_to_length
  rw [if_neg h]
  unfold fallback_shorten amended_fallback
  rw [if_neg h, if_neg h]
  show (if mc < (joinSep [' '] ((sentenceSplit (strip text)).take (max 1 n))).length then
      rsplitLast ((joinSep [' '] ((sentenceSplit (strip text)).take (max 1 n))).take mc) ++ ['…']
    else joinSep [' '] ((sentenceSplit (strip text)).take (max 1 n))) =
    (if (joinSep [' '] ((sentenceSplit (strip text)).take (max 1 n))).length ≤ mc then
      joinSep [' '] ((sentenceSplit (strip text)).take (max 1 n))
    else truncAtLast (fun c => c == ' ')
      ((joinSep [' '] ((sentenceSplit (strip text)).take (max 1 n))).take mc) ++ ['…'])
  by_cases hlen : mc < (joinSep [' '] ((sentenceSplit (strip text)).take (max 1 n))).length
  · rw [if_pos hlen, if_neg (by omega), rsplitLast_eq_truncAtLast]
  · rw [if_neg hlen, if_pos (by omega)]

/-- C8 witness: the amended description agrees with the code on the
counterexample input. -/
theorem claim_C8_witness : (str "ab\tcd") ≠ [] ∧
    summarize_to_length (str "ab\tcd") (str "en") 1 3 = amended_fallback (str "ab\tcd") 3 1 :=
  ⟨by decide, claim_C8 (str "ab\tcd") (str "en") 3 1 (by decide)⟩

/-- C6 counterexample: a 701-character text without whitespace is condensed to
701 characters (> 700) because the ellipsis is appended after the cap cut; a
text of six newline-separated fragments with no sentence punctuation keeps its
6 lines (> 5); the 3000-cap condensation likewise yields 3001 characters. -/
theorem claim_C6_counterexample :
    ¬((enforce_lines (summarize_to_length (List.replicate 701 'a') (str "en") 5 700) 5).length
        ≤ 700) ∧
    ¬(lineCount (enforce_lines
        (summarize_to_length (str "a\nb\nc\nd\ne\nf") (str "en") 5 700) 5) ≤ 5) ∧
    ¬((enforce_lines (summarize_to_length (List.replicate 3001 'a') (str "en") 15 3000) 15).length
        ≤ 3000) := by
  have hp : ∀ m : Nat, ∀ c ∈ List.replicate m 'a', isWs c = false ∧ isPunct c = false := by
    intro m c hc
    rw [List.eq_of_mem_replicate hc]
    constructor <;> decide
  have hnn : ∀ m : Nat, 0 < m → List.replicate m 'a' ≠ [] := by
    intro m hm hh
    have := congrArg List.length hh
    rw [List.length_replicate] at this
    simp at this
    omega
  have hln : ∀ m : Nat, (List.replicate m 'a').length = m := fun m => List.length_replicate m 'a'
  refine ⟨?_, by decide, ?_⟩
  · have h := plain_condensed_length (List.replicate 701 'a') (hp 701) (hnn 701 (by omega))
      (str "en") 5 700 (by omega) (by rw [hln]; omega)
    omega
  · have h := plain_condensed_length (List.replicate 3001 'a') (hp 3001) (hnn 3001 (by omega))
      (str "en") 15 3000 (by omega) (by rw [hln]; omega)
    omega

/-- C6 (amended): for every nonempty input text the condensed short summary is
at most 701 characters and the condensed long summary at most 3001 characters
(the cap can be exceeded by exactly the appended ellipsis); the 5/15 line
bounds hold whenever the input text contains no newline character (a newline
inside a sentence unit survives both condensation and line enforcement). -/
theorem claim_C6 (text : Str) (lang : Str) (_h : text ≠ []) :
    (enforce_lines (summarize_to_length text lang 5 700) 5).length ≤ 701 ∧
    (enforce_lines (summarize_to_length text lang 15 3000) 15).length ≤ 3001 ∧
    ('\n' ∉ text → lineCount (enforce_lines (summarize_to_length text lang 5 700) 5) ≤ 5) ∧
    ('\n' ∉ text → lineCount (enforce_lines (summarize_to_length text lang 15 3000) 15) ≤ 15) := by
  refine ⟨?_, ?_, ?_, ?_⟩
  · exact le_trans (enforce_lines_length_le _ 5) (summarize_to_length_le text lang 5 700)
  · exact le_trans (enforce_lines_length_le _ 15) (summarize_to_length_le text lang 15 3000)
  · intro hnl
    exact enforce_lines_lineCount_le _ 5 (by omega) (summarize_no_newline text lang 5 700 hnl)
  · intro hnl
    exact enforce_lines_lineCount_le _ 15 (by omega) (summarize_no_newline text lang 15 3000 hnl)

/-- C6 witness: the amended bounds at a concrete text. -/
theorem claim_C6_witness : (str "One. Two three.") ≠ [] ∧
    (enforce_lines (summarize_to_length (str "One. Two three.") (str "en") 5 700) 5).length
      ≤ 701 :=
  ⟨by decide, (claim_C6 (str "One. Two three.") (str "en") (by decide)).1⟩

/-- C1 counterexample: with the geosearch succeeding and the pageprops request
of `wikidata_qid_for_pageid` raising a network error, the whole lookup request
aborts with that error — the failure is not converted into absence and does
propagate out of the per-candidate chain. -/
theorem claim_C1_counterexample :
    envQidErr.geosearch = .ok [cand1] ∧
    envQidErr.qid cand1.pageid = .error () ∧
    lookup envQidErr (str "en") (some (str "de")) = .error () :=
  ⟨rfl, rfl, rfl⟩

/-- C1 (amended): network failures inside `summary_in_lang` and `full_extract`
are converted into absence locally and never abort the request (a lookup whose
geosearch, pageprops and entity calls all succeed never raises, whatever the
summary/extract providers do); but a network failure inside
`wikidata_qid_for_pageid` — and likewise `title_in_lang_from_qid` — propagates
out of the per-candidate chain and aborts the whole lookup. -/
theorem claim_C1 :
    (∀ (env : Env) (dl : Str) (rl : Option Str),
      isOk env.geosearch = true →
      (∀ p, isOk (env.qid p) = true) →
      (∀ q, isOk (env.entity q) = true) →
      isOk (lookup env dl rl) = true) ∧
    (∀ (env : Env) (dl : Str) (rl : Option Str) (cs : List Candidate) (c : Candidate),
      env.geosearch = .ok cs → c ∈ cs → env.qid c.pageid = .error () →
      lookup env dl rl = .error ()) ∧
    (∀ (env : Env) (dl : Str) (rl : Option Str) (cs : List Candidate) (c : Candidate) (q : Str),
      env.geosearch = .ok cs → c ∈ cs →
      wikidata_qid_for_pageid env c.pageid = .ok (some q) → q ≠ [] →
      env.entity q = .error () →
      lookup env dl rl = .error ()) := by
  refine ⟨?_, ?_, ?_⟩
  · intro env dl rl hg hq he
    cases hgs : env.geosearch with
    | error e => rw [hgs] at hg; exact absurd hg (by simp [isOk])
    | ok raw =>
      by_cases hraw : raw = []
      · rw [hraw] at hgs
        rw [lookup_geo_nil env dl rl hgs]
        rfl
      · have hall := processAll_isOk env (resolveLang dl rl) hq he raw
        cases hpa : processAll env (resolveLang dl rl) raw with
        | error e => rw [hpa] at hall; exact absurd hall (by simp [isOk])
        | ok enriched =>
          rw [lookup_pa_ok env dl rl raw enriched hgs hraw hpa]
          by_cases hb : enriched = [] <;> simp [hb, isOk]
  · intro env dl rl cs c hg hc hqe
    have hcs : cs ≠ [] := by
      intro hx
      rw [hx] at hc
      simp at hc
    exact lookup_pa_err env dl rl cs () hg hcs
      (processAll_error_of_mem env (resolveLang dl rl) cs c hc
        (processCandidate_error_of_qid env (resolveLang dl rl) c hqe))
  · intro env dl rl cs c q hg hc hq hqne he
    have hcs : cs ≠ [] := by
      intro hx
      rw [hx] at hc
      simp at hc
    exact lookup_pa_err env dl rl cs () hg hcs
      (processAll_error_of_mem env (resolveLang dl rl) cs c hc
        (processCandidate_error_of_entity env (resolveLang dl rl) c q hq hqne he))

/-- C1 witness: an all-providers-healthy lookup succeeds; a lookup whose QID
request fails aborts; a lookup whose entity (sitelink) request fails aborts. -/
theorem claim_C1_witness :
    isOk (lookup envLoc (str "en") (some (str "de"))) = true ∧
    lookup envQidErr (str "en") (some (str "de")) = .error () ∧
    lookup envEntErr (str "en") (some (str "de")) = .error () :=
  ⟨claim_C1.1 envLoc (str "en") (some (str "de")) rfl (fun _ => rfl) (fun _ => rfl),
   claim_C1.2.1 envQidErr (str "en") (some (str "de")) [cand1] cand1 rfl (by simp) rfl,
   claim_C1.2.2 envEntErr (str "en") (some (str "de")) [cand1] cand1 (str "Q1") rfl (by simp)
     rfl (by decide) rfl⟩

/-- C3 counterexample: a geo-search transport/status failure does not yield
`{best: null, candidates: []}` — it propagates as an exception to the caller. -/
theorem claim_C3_counterexample :
    envGeoErr.geosearch = .error () ∧
    lookup envGeoErr (str "en") (some (str "en")) = .error () ∧
    lookup envGeoErr (str "en") (some (str "en")) ≠ .ok ⟨none, []⟩ := by
  refine ⟨rfl, rfl, ?_⟩
  intro h
  have h2 : (Except.error () : Except Unit LookupResponse) = .ok ⟨none, []⟩ := h
  exact Except.noConfusion h2

/-- C3 (amended): when geo-search succeeds, `lookup` returns
`{best: null, candidates: []}` exactly when the returned candidate list is
empty or every candidate is dropped at the summary step; when geo-search
raises, the error propagates to the caller instead of yielding the empty
result. -/
theorem claim_C3 :
    (∀ (env : Env) (dl : Str) (rl : Option Str) (cs : List Candidate),
      env.geosearch = .ok cs →
      (lookup env dl rl = .ok ⟨none, []⟩ ↔
        (cs = [] ∨ processAll env (resolveLang dl rl) cs = .ok []))) ∧
    (∀ (env : Env) (dl : Str) (rl : Option Str) (e : Unit),
      env.geosearch = .error e → lookup env dl rl = .error e) := by
  constructor
  · intro env dl rl cs hg
    by_cases hcs : cs = []
    · rw [hcs] at hg
      rw [lookup_geo_nil env dl rl hg]
      simp [hcs]
    · cases hpa : processAll env (resolveLang dl rl) cs with
      | error e =>
        rw [lookup_pa_err env dl rl cs e hg hcs hpa]
        constructor
        · intro h; exact absurd h (by simp)
        · rintro (h | h)
          · exact absurd h hcs
          · exact absurd h (by simp)
      | ok enriched =>
        rw [lookup_pa_ok env dl rl cs enriched hg hcs hpa]
        by_cases hen : enriched = []
        · rw [if_pos hen]
          constructor
          · intro _; exact Or.inr (by rw [hen])
          · intro _; rfl
        · rw [if_neg hen]
          constructor
          · intro h
            have h2 : (⟨(if (enriched.filter fun p => truthy p.thumbnail_url) = []
                then enriched
                else enriched.filter fun p => truthy p.thumbnail_url).head?,
                enriched⟩ : LookupResponse) = ⟨none, []⟩ := by simpa using h
            have : enriched = [] := congrArg LookupResponse.candidates h2
            exact absurd this hen
          · rintro (h | h)
            · exact absurd h hcs
            · have : enriched = [] := by simpa using h
              exact absurd this hen
  · intro env dl rl e hg
    exact lookup_geo_err env dl rl e hg

/-- C3 witness: a candidate dropped at the summary step yields the empty
result. -/
theorem claim_C3_witness :
    envDrop.geosearch = .ok [cand1] ∧
    lookup envDrop (str "en") (some (str "en")) = .ok ⟨none, []⟩ :=
  ⟨rfl, (claim_C3.1 envDrop (str "en") (some (str "en")) [cand1] rfl).mpr (Or.inr rfl)⟩

/-- C2: per candidate, the summary fetch order is as claimed — when a
localized title was resolved its fetch comes first; the English fetch happens,
and `used_en_fallback` is set, exactly when no localized title exists or the
localized attempt returned absent; a successful localized fetch issues no
English call and keeps the flag false. -/
theorem claim_C2 (env : Env) (lang : Str) (c : Candidate) (r : CandResult) (t? : Option Str)
    (hpc : processCandidate env lang c = .ok r)
    (hrt : resolveTarget env lang c = .ok t?) :
    (∀ t, t? = some t → r.sumCalls.head? = some ⟨t, lang⟩) ∧
    (r.usedEnFallback = true ↔
      (t? = none ∨ ∃ t, t? = some t ∧ summary_in_lang env t lang = none)) ∧
    (r.usedEnFallback = true → r.sumCalls.getLast? = some ⟨c.title, str "en"⟩) ∧
    (∀ t s, t? = some t → summary_in_lang env t lang = some s →
      r.usedEnFallback = false ∧ r.sumCalls = [⟨t, lang⟩]) := by
  unfold processCandidate at hpc
  rw [hrt] at hpc
  have hr : afterResolve env lang c t? = r := by simpa [Except.map] using hpc
  subst hr
  cases ht? : t? with
  | none =>
    refine ⟨?_, ?_, ?_, ?_⟩
    · intro t ht; exact absurd ht (by simp)
    · simp [afterResolve_used, fetchSummary_none]
    · intro _
      simp [afterResolve_calls, fetchSummary_none]
    · intro t s ht; exact absurd ht (by simp)
  | some t =>
    rw [ht?] at hrt
    have htne : t ≠ [] := resolveTarget_some_ne_nil env lang c t hrt
    cases hsl : summary_in_lang env t lang with
    | some s0 =>
      have hf := fetchSummary_some_hit env lang c t s0 htne hsl
      refine ⟨?_, ?_, ?_, ?_⟩
      · intro t' ht'
        have hte : t = t' := by simpa using ht'
        subst hte
        simp [afterResolve_calls, hf]
      · simp only [afterResolve_used, hf]
        constructor
        · intro hfalse; exact absurd hfalse (by simp)
        · rintro (habs | ⟨t', ht', hs'⟩)
          · exact absurd habs (by simp)
          · have hte : t = t' := by simpa using ht'
            subst hte
            rw [hsl] at hs'
            exact absurd hs' (by simp)
      · intro habs
        simp [afterResolve_used, hf] at habs
      · intro t' s' ht' _
        have hte : t = t' := by simpa using ht'
        subst hte
        constructor
        · simp [afterResolve_used, hf]
        · simp [afterResolve_calls, hf]
    | none =>
      have hf := fetchSummary_some_miss env lang c t htne hsl
      refine ⟨?_, ?_, ?_, ?_⟩
      · intro t' ht'
        have hte : t = t' := by simpa using ht'
        subst hte
        simp [afterResolve_calls, hf]
      · constructor
        · intro _; exact Or.inr ⟨t, rfl, hsl⟩
        · intro _
          rw [afterResolve_used, hf]
      · intro _
        simp [afterResolve_calls, hf]
      · intro t' s' ht' hs'
        have hte : t = t' := by simpa using ht'
        subst hte
        rw [hsl] at hs'
        exact absurd hs' (by simp)

/-- C2 witness: localized-success run issues exactly one call, the localized
one, and keeps the fallback flag false. -/
theorem claim_C2_witness :
    processCandidate envLoc (str "de") cand1 = .ok res1 ∧
    resolveTarget envLoc (str "de") cand1 = .ok (some (str "Turm")) ∧
    res1.sumCalls.head? = some ⟨str "Turm", str "de"⟩ ∧
    res1.usedEnFallback = false ∧ res1.sumCalls = [⟨str "Turm", str "de"⟩] :=
  ⟨rfl, rfl,
   (claim_C2 envLoc (str "de") cand1 res1 (some (str "Turm")) rfl rfl).1 (str "Turm") rfl,
   ((claim_C2 envLoc (str "de") cand1 res1 (some (str "Turm")) rfl rfl).2.2.2
     (str "Turm") sum1 rfl rfl).1,
   ((claim_C2 envLoc (str "de") cand1 res1 (some (str "Turm")) rfl rfl).2.2.2
     (str "Turm") sum1 rfl rfl).2⟩

/-- C4: a candidate whose localized and English summary fetches are both
absent is dropped — its per-candidate result carries no place record, and the
lookup response is identical to the one for a geosearch list without that
candidate (hence it affects neither `candidates` nor `best`). -/
theorem claim_C4 (env : Env) (dl : Str) (rl : Option Str) (pre post : List Candidate)
    (c : Candidate) (t? : Option Str)
    (hg : env.geosearch = .ok (pre ++ c :: post))
    (hrt : resolveTarget env (resolveLang dl rl) c = .ok t?)
    (hl : ∀ t, t? = some t → t ≠ [] → summary_in_lang env t (resolveLang dl rl) = none)
    (he : summary_in_lang env c.title (str "en") = none) :
    (processCandidate env (resolveLang dl rl) c).map (fun cr => cr.place) = .ok none ∧
    lookup env dl rl = lookup (withGeo env (pre ++ post)) dl rl := by
  have hpc : processCandidate env (resolveLang dl rl) c =
      .ok (afterResolve env (resolveLang dl rl) c t?) := by
    unfold processCandidate
    rw [hrt]
    rfl
  have hplace := afterResolve_drop env (resolveLang dl rl) c t? hl he
  have heta : afterResolve env (resolveLang dl rl) c t? =
      ⟨none, (afterResolve env (resolveLang dl rl) c t?).usedEnFallback,
       (afterResolve env (resolveLang dl rl) c t?).sumCalls⟩ := by
    rw [← hplace]
  have hpp := processAll_skip env (resolveLang dl rl) c
    ⟨(afterResolve env (resolveLang dl rl) c t?).usedEnFallback,
     (afterResolve env (resolveLang dl rl) c t?).sumCalls, by rw [hpc, heta]⟩ pre post
  constructor
  · rw [hpc]
    simp [Except.map, hplace]
  · have hg2 : (withGeo env (pre ++ post)).geosearch = .ok (pre ++ post) := rfl
    by_cases hpp0 : pre ++ post = []
    · rw [lookup_geo_nil (withGeo env (pre ++ post)) dl rl (by rw [hg2, hpp0])]
      have hpa : processAll env (resolveLang dl rl) (pre ++ c :: post) = .ok [] := by
        rw [hpp, hpp0]
        rfl
      rw [lookup_pa_ok env dl rl (pre ++ c :: post) [] hg (by simp) hpa]
      simp
    · cases hpa2 : processAll env (resolveLang dl rl) (pre ++ post) with
      | error e =>
        rw [lookup_pa_err env dl rl (pre ++ c :: post) e hg (by simp)
          (by rw [hpp]; exact hpa2)]
        rw [lookup_pa_err (withGeo env (pre ++ post)) dl rl (pre ++ post) e hg2 hpp0
          (by rw [processAll_withGeo]; exact hpa2)]
      | ok enriched =>
        rw [lookup_pa_ok env dl rl (pre ++ c :: post) enriched hg (by simp)
          (by rw [hpp]; exact hpa2)]
        rw [lookup_pa_ok (withGeo env (pre ++ post)) dl rl (pre ++ post) enriched hg2 hpp0
          (by rw [processAll_withGeo]; exact hpa2)]

/-- C4 witness: the dropped candidate leaves the response identical to an
empty geosearch. -/
theorem claim_C4_witness :
    (processCandidate envDrop (resolveLang (str "en") (some (str "en"))) cand1).map
      (fun cr => cr.place) = .ok none ∧
    lookup envDrop (str "en") (some (str "en")) =
      lookup (withGeo envDrop []) (str "en") (some (str "en")) :=
  claim_C4 envDrop (str "en") (some (str "en")) [] [] cand1 none rfl rfl
    (fun t ht => absurd ht (by simp)) rfl

/-- C5: `best` is the first record (in input order) with a truthy thumbnail,
or the first record overall when none has one — a purely positional choice. -/
theorem claim_C5 (env : Env) (dl : Str) (rl : Option Str) (r : LookupResponse)
    (h : lookup env dl rl = .ok r) (hne : r.candidates ≠ []) :
    r.best = match r.candidates.find? (fun p => truthy p.thumbnail_url) with
      | some q => some q
      | none => r.candidates.head? := by
  cases hg : env.geosearch with
  | error e =>
    rw [lookup_geo_err env dl rl e hg] at h
    exact absurd h (by simp)
  | ok raw =>
    by_cases hraw : raw = []
    · rw [hraw] at hg
      rw [lookup_geo_nil env dl rl hg] at h
      have hr0 : (⟨none, []⟩ : LookupResponse) = r := by simpa using h
      rw [← hr0] at hne
      simp at hne
    · cases hpa : processAll env (resolveLang dl rl) raw with
      | error e =>
        rw [lookup_pa_err env dl rl raw e hg hraw hpa] at h
        exact absurd h (by simp)
      | ok enriched =>
        rw [lookup_pa_ok env dl rl raw enriched hg hraw hpa] at h
        by_cases hen : enriched = []
        · rw [if_pos hen] at h
          have hr0 : (⟨none, []⟩ : LookupResponse) = r := by simpa using h
          rw [← hr0] at hne
          simp at hne
        · rw [if_neg hen] at h
          have hr : (⟨(if (enriched.filter fun p => truthy p.thumbnail_url) = []
              then enriched
              else enriched.filter fun p => truthy p.thumbnail_url).head?,
              enriched⟩ : LookupResponse) = r := by simpa using h
          rw [← hr]
          show (if (enriched.filter fun p => truthy p.thumbnail_url) = []
              then enriched
              else enriched.filter fun p => truthy p.thumbnail_url).head? =
            match enriched.find? (fun p => truthy p.thumbnail_url) with
            | some q => some q
            | none => enriched.head?
          rw [find?_eq_head_filter]
          by_cases hf : (enriched.filter fun p => truthy p.thumbnail_url) = []
          · rw [if_pos hf, hf]
            rfl
          · rw [if_neg hf]
            cases hh : (enriched.filter fun p => truthy p.thumbnail_url).head? with
            | none =>
              rw [List.head?_eq_none_iff] at hh
              exact absurd hh hf
            | some q => rfl

/-- C5 witness: two candidates, only the second with a thumbnail — the second
is selected. -/
theorem claim_C5_witness :
    lookup envTwo (str "en") (some (str "en")) = .ok resp2 ∧
    resp2.candidates ≠ [] ∧
    resp2.best = match resp2.candidates.find? (fun p => truthy p.thumbnail_url) with
      | some q => some q
      | none => resp2.candidates.head? :=
  ⟨rfl, by decide, claim_C5 envTwo (str "en") (some (str "en")) resp2 rfl (by decide)⟩

/-- C9: every place record emitted by `lookup` — each candidate and `best` —
carries exactly the request's resolved target language in its `lang` field,
English fallback or not. -/
theorem claim_C9 (env : Env) (dl : Str) (rl : Option Str) (r : LookupResponse)
    (h : lookup env dl rl = .ok r) :
    (∀ p ∈ r.candidates, p.lang = resolveLang dl rl) ∧
    (∀ b, r.best = some b → b.lang = resolveLang dl rl) :=
  lookup_lang env dl rl r h

/-- C9 witness: the English-fallback run still tags its record with the
requested language `de`. -/
theorem claim_C9_witness :
    lookup envEn (str "en") (some (str "de")) = .ok resp1 ∧
    place1 ∈ resp1.candidates ∧
    place1.lang = resolveLang (str "en") (some (str "de")) :=
  ⟨rfl, by decide,
   (claim_C9 envEn (str "en") (some (str "de")) resp1 rfl).1 place1 (by decide)⟩

/-- C10: the resolved target language is the lowercased request language
(falling back to the configured default when the request gives none), silently
replaced by `"en"` when not supported; consequently every emitted record's
`lang` is a member of `SUPPORTED_LANGS`. -/
theorem claim_C10 :
    (∀ (dl l : Str), l ≠ [] →
      resolveLang dl (some l) =
        (if lowerStr l ∈ SUPPORTED_LANGS then lowerStr l else str "en")) ∧
    (∀ dl : Str, resolveLang dl none =
      (if lowerStr dl ∈ SUPPORTED_LANGS then lowerStr dl else str "en")) ∧
    (∀ (env : Env) (dl : Str) (rl : Option Str) (r : LookupResponse),
      lookup env dl rl = .ok r →
      (∀ p ∈ r.candidates, p.lang ∈ SUPPORTED_LANGS) ∧
      (∀ b, r.best = some b → b.lang ∈ SUPPORTED_LANGS)) := by
  refine ⟨?_, ?_, ?_⟩
  · intro dl l hl
    unfold resolveLang
    show (if lowerStr (if l = [] then dl else l) ∈ SUPPORTED_LANGS
      then lowerStr (if l = [] then dl else l)
      else str "en") = _
    rw [if_neg hl]
  · intro dl
    rfl
  · intro env dl rl r h
    have hlng := lookup_lang env dl rl r h
    have hm := resolveLang_mem dl rl
    exact ⟨fun p hp => by rw [hlng.1 p hp]; exact hm,
           fun b hb => by rw [hlng.2 b hb]; exact hm⟩

/-- C10 witness: an uppercase request code is lowercased and accepted, and the
emitted record's language is supported. -/
theorem claim_C10_witness :
    (str "DE") ≠ [] ∧
    resolveLang (str "en") (some (str "DE")) =
      (if lowerStr (str "DE") ∈ SUPPORTED_LANGS then lowerStr (str "DE") else str "en") ∧
    lookup envEn (str "en") (some (str "de")) = .ok resp1 ∧
    place1 ∈ resp1.candidates ∧
    place1.lang ∈ SUPPORTED_LANGS :=
  ⟨by decide, claim_C10.1 (str "en") (str "DE") (by decide), rfl, by decide,
   (claim_C10.2.2 envEn (str "en") (some (str "de")) resp1 rfl).1 place1 (by decide)⟩

end App
